import Mathlib

/-!
Shallow embedding of the terrain generator `src/main.c` (msu3-hills).

C `FLOAT` values are modeled as `ℝ`; the C library transcendentals become the
corresponding real functions (`Real.exp`, real exponentiation).  The stream of
`rand()` results is an explicit parameter `rnd : ℕ → ℕ` together with a counter
threaded through the passes in the order the source consumes draws
(`srand(seed)` makes this stream a function of the seed alone).  Memory
returned by `malloc` without initialization is modeled by an explicit `junk`
parameter holding the indeterminate prior contents of the buffer.  Flattened
C arrays are Lean lists; out-of-range reads use `List.getD` with default `0`.
-/

namespace Msu3Hills

open scoped List

/-- `frand(f)` (main.c:58): `2.0 * ((FLOAT)(rand() & 0x7FFF) / (FLOAT)0x7FFF) * f - f`,
taken at position `c` of the `rand()` stream. -/
noncomputable def frandVal (rnd : ℕ → ℕ) (c : ℕ) (f : ℝ) : ℝ :=
  2 * (((rnd c &&& 0x7FFF : ℕ) : ℝ) / 0x7FFF) * f - f

/-- Iteration sequence of the C loop `for (v = start; v < bound; v += stride)`. -/
def crawl (start stride bound : ℕ) : List ℕ :=
  (List.range bound).filter (fun v => start ≤ v && (v - start) % stride == 0)

/-- Values taken by `step` in `for (step = s; step; step >>= 1)` (main.c:429). -/
def halves : ℕ → List ℕ
  | 0 => []
  | s + 1 => (s + 1) :: halves ((s + 1) / 2)

/-- One diamond-pass write (main.c:430-436): grid cell `(x, y)` receives the
average of its four diagonal neighbours plus a perturbation, consuming one
`rand()` draw.  (Index offsets are `LONG` in C; every call of the pass has
`step ≤ x` and `step ≤ y`, so `ℕ` subtraction agrees with the source.) -/
noncomputable def diamondWrite (size step : ℕ) (hdef : ℝ) (rnd : ℕ → ℕ)
    (st : List ℝ × ℕ) (p : ℕ × ℕ) : List ℝ × ℕ :=
  let sinc := size + 1
  let x := p.1
  let y := p.2
  let g := st.1
  let v := hdef * frandVal rnd st.2 0.500
      + 0.250 * (g.getD ((x - step) + (y - step) * sinc) 0
               + g.getD ((x + step) + (y - step) * sinc) 0
               + g.getD ((x - step) + (y + step) * sinc) 0
               + g.getD ((x + step) + (y + step) * sinc) 0)
  (g.set (x + y * sinc) v, st.2 + 1)

/-- Diamond pass at stride `step` (main.c:430-436): `y` and `x` both range over
`step, 3*step, 5*step, … < size` (`y += step << 1`). -/
noncomputable def diamondPass (size step : ℕ) (hdef : ℝ) (rnd : ℕ → ℕ)
    (st : List ℝ × ℕ) : List ℝ × ℕ :=
  ((crawl step (2 * step) size).flatMap fun y =>
    (crawl step (2 * step) size).map fun x => (x, y)).foldl
    (diamondWrite size step hdef rnd) st

/-- One square-pass write with its toroidal mirror writes (main.c:440-448).
The source computes `xbgn = xend = x; if (x == 0) xend = size; else if
(x == size) xbgn = 0;` (same for `y`), then mirrors the freshly written value
to column `size` when `x == 0` and to row `size` when `y == 0`. -/
noncomputable def squareWrite (size step : ℕ) (hdef : ℝ) (rnd : ℕ → ℕ)
    (st : List ℝ × ℕ) (p : ℕ × ℕ) : List ℝ × ℕ :=
  let sinc := size + 1
  let x := p.1
  let y := p.2
  let xend := if x = 0 then size else x
  let xbgn := if x = 0 then x else if x = size then 0 else x
  let yend := if y = 0 then size else y
  let ybgn := if y = 0 then y else if y = size then 0 else y
  let g := st.1
  let v := hdef * frandVal rnd st.2 0.500
      + 0.250 * (g.getD ((xend - step) + y * sinc) 0
               + g.getD ((xbgn + step) + y * sinc) 0
               + g.getD (x + (yend - step) * sinc) 0
               + g.getD (x + (ybgn + step) * sinc) 0)
  let g1 := g.set (x + y * sinc) v
  let g2 := if x = 0 then g1.set (size + y * sinc) (g1.getD (0 + y * sinc) 0) else g1
  let g3 := if y = 0 then g2.set (x + size * sinc) (g2.getD (x + 0 * sinc) 0) else g2
  (g3, st.2 + 1)

/-- Square pass at stride `step` (main.c:438-450): rows `y = 0, step, 2*step, …
< size`, with `oddc` flipping per row, so the `j`-th row starts `x` at `step`
when `j` is even and at `0` when `j` is odd, stepping by `2*step`. -/
noncomputable def squarePass (size step : ℕ) (hdef : ℝ) (rnd : ℕ → ℕ)
    (st : List ℝ × ℕ) : List ℝ × ℕ :=
  ((crawl 0 step size).enum.flatMap fun jy =>
    (crawl (if jy.1 % 2 = 1 then 0 else step) (2 * step) size).map
      fun x => (x, jy.2)).foldl
    (squareWrite size step hdef rnd) st

/-- Body of `MakeHeightmap` after its validity check (main.c:425-452): a
`(size+1)*(size+1)` grid zero-initialized by `calloc`, run through one diamond
and one square pass per halving of `step`, with `hdef = dmpf =
pow(2.0, -fabs(dmpf))` and `hdef *= dmpf` after each round. -/
noncomputable def heightmapState (size : ℕ) (dmpf : ℝ) (rnd : ℕ → ℕ) :
    List ℝ × ℕ :=
  let d : ℝ := (2 : ℝ) ^ (-|dmpf|)
  ((halves (size / 2)).foldl
    (fun (q : (List ℝ × ℕ) × ℝ) step =>
      (squarePass size step q.2 rnd (diamondPass size step q.2 rnd q.1), q.2 * d))
    ((List.replicate ((size + 1) * (size + 1)) 0, 0), d)).1

/-- The grid component of `heightmapState` (its second component counts the
`rand()` draws consumed). -/
noncomputable def heightmapGrid (size : ℕ) (dmpf : ℝ) (rnd : ℕ → ℕ) : List ℝ :=
  (heightmapState size dmpf rnd).1

/-- `MakeHeightmap` (main.c:422-453).  `none` exactly when the C function
returns `NULL`, i.e. when `(size & (size - 1)) || (size == 1)`. -/
noncomputable def MakeHeightmap (size : ℕ) (dmpf : ℝ) (rnd : ℕ → ℕ) :
    Option (List ℝ) :=
  if size &&& (size - 1) ≠ 0 ∨ size = 1 then none
  else some (heightmapGrid size dmpf rnd)

/-- Kernel radius `tr(fsig)` of the tripled sigma (main.c:473-475). -/
noncomputable def blurRadius (fsig : ℝ) : ℕ := (⌊fsig⌋).toNat

/-- Unnormalized Gaussian weight `exp(-x*x*fsum)` with
`fsum = 9.0 / (2.0 * fsig * fsig)` (main.c:472-476). -/
noncomputable def blurW (fsig : ℝ) (x : ℕ) : ℝ :=
  Real.exp (-((x : ℝ) * x * (9 / (2 * fsig * fsig))))

/-- Normalized center weight: `blur[0]` accumulates the off-center weights and
then becomes `0.5 / (blur[0] + 0.5)` (main.c:476-478). -/
noncomputable def blurB0 (fsig : ℝ) : ℝ :=
  0.5 / ((∑ z in Finset.Icc 1 (blurRadius fsig), blurW fsig z) + 0.5)

/-- Normalized off-center weight `blur[x] *= blur[0]` (main.c:479-480). -/
noncomputable def blurB (fsig : ℝ) (z : ℕ) : ℝ := blurW fsig z * blurB0 fsig

/-- Toroidal wrap below: `(i - z < 0) ? i - z + size : i - z` (main.c:486,493). -/
def wrapLo (size i z : ℕ) : ℕ := if i < z then i + size - z else i - z

/-- Toroidal wrap above: `(i + z > size) ? i + z - size : i + z` (main.c:487,494). -/
def wrapHi (size i z : ℕ) : ℕ := if size < i + z then i + z - size else i + z

/-- Row-pass intermediate buffer value at `(x, y)` (main.c:482-489).  `ftmp`
comes from `malloc` and is never initialized, yet the pass computes
`ftmp[dpos + x] = ftmp[dpos + x] * blur[0] + fsum`, reading each cell before
its only write; `junk` holds the indeterminate prior buffer contents, and the
neighbour sum reads the input heightmap with toroidal wrap in `x`. -/
noncomputable def blurRow (farr : List ℝ) (size : ℕ) (fsig : ℝ) (junk : ℕ → ℝ)
    (x y : ℕ) : ℝ :=
  junk (y * (size + 1) + x) * blurB0 fsig
    + ∑ z in Finset.Icc 1 (blurRadius fsig),
        (farr.getD (y * (size + 1) + wrapLo size x z) 0
          + farr.getD (y * (size + 1) + wrapHi size x z) 0) * blurB fsig z

/-- Column-pass (final) value at `(x, y)` (main.c:490-496):
`farr[i] * blur[0] + fsum` with `fsum` drawn from the row-smoothed buffer,
wrapping toroidally in `y`. -/
noncomputable def blurCol (farr : List ℝ) (size : ℕ) (fsig : ℝ) (junk : ℕ → ℝ)
    (x y : ℕ) : ℝ :=
  farr.getD (x + y * (size + 1)) 0 * blurB0 fsig
    + ∑ z in Finset.Icc 1 (blurRadius fsig),
        (blurRow farr size fsig junk x (wrapLo size y z)
          + blurRow farr size fsig junk x (wrapHi size y z)) * blurB fsig z

/-- `BlurHeightmap` (main.c:465-499).  Early returns: the heightmap is left
unchanged when `fabs(fsig) * 3.0 == 0`, when `size <= 0`, or when
`fabs(fsig) * 3.0 >= size`. -/
noncomputable def BlurHeightmap (farr : List ℝ) (size : ℕ) (fsig0 : ℝ)
    (junk : ℕ → ℝ) : List ℝ :=
  let fsig := |fsig0| * 3.0
  if fsig = 0 then farr
  else if size = 0 ∨ (size : ℝ) ≤ fsig then farr
  else (List.range ((size + 1) * (size + 1))).map fun i =>
    blurCol farr size fsig junk (i % (size + 1)) (i / (size + 1))

/-- The 12 vertex indices of the four triangles of cell `(x, y)`, in the
member order `a…l` of `FTRI` (main.c:877-898); `dpos = (y * (ndim + 1) << 1) + x`. -/
def cellIdx (n x y : ℕ) : List ℕ :=
  let dpos := 2 * (y * (n + 1)) + x
  [dpos + (n + 1), dpos, dpos + 1,
   dpos + (n + 1), dpos + 1, dpos + (n + n + 2) + 1,
   dpos + (n + 1), dpos + (n + n + 2) + 1, dpos + (n + n + 2),
   dpos + (n + 1), dpos + (n + n + 2), dpos]

/-- Index array of the landscape VBO (main.c:877-899): the cells' `FTRI`
entries laid out row-major. -/
def landIndices (n : ℕ) : List ℕ :=
  (List.range n).flatMap fun y => (List.range n).flatMap fun x => cellIdx n x y

/-- `ndot` passed to `MakeVBO` for the landscape (main.c:871): the allocated
vertex-slot count `(ndim + 1) * (ndim + ndim + 2)`. -/
def landNdot (n : ℕ) : ℕ := (n + 1) * (n + n + 2)

/-- `npol` of the landscape (main.c:1058): the number of index entries handed
to `glDrawElements`, i.e. 3 per triangle. -/
def landNpol (n : ℕ) : ℕ := 3 * 4 * n * n

/-- `FCLR` (main.c:166-174): an RGBA8888 color.  The union's byte view is the
primitive one here (`R` is the low byte of the `DWORD` view); whole-`DWORD`
assignments in the source are modeled as assignments of all four fields. -/
structure FCLR where
  R : ℕ
  G : ℕ
  B : ℕ
  A : ℕ
deriving DecidableEq

instance : Inhabited FCLR := ⟨⟨0, 0, 0, 0⟩⟩

/-- `FHEI` (main.c:309-314): a relative height band with its color. -/
structure FHEI where
  fhei : ℝ
  fclr : FCLR

instance : Inhabited FHEI := ⟨⟨0, default⟩⟩

/-- Index reached by the scan `for (fmax = i = 0; lscp[i].fhei > 0.0; i++)`
(main.c:934-935), starting from `i`.  On a band table with no terminating
non-positive entry this equals `lscp.length`: the C loop reads one element
past the end of the array (out of bounds; modeled by `getD`'s default). -/
noncomputable def sentinelFrom (lscp : List FHEI) (i : ℕ) : ℕ :=
  if h : 0 < (lscp.getD i default).fhei then sentinelFrom lscp (i + 1) else i
termination_by lscp.length - i
decreasing_by
  have hi : i < lscp.length := by
    by_contra hc
    have hd : (default : FHEI).fhei = 0 := rfl
    rw [List.getD_eq_default _ _ (Nat.le_of_not_lt hc), hd] at h
    exact absurd h (by norm_num)
  omega

/-- Alias of `sentinelFrom lscp 0`: where the band-table scan stops. -/
noncomputable def sentinelIdx (lscp : List FHEI) : ℕ := sentinelFrom lscp 0

/-- `fmax` accumulated by the same scan, `fmax += lscp[i].fhei`
(main.c:934-935), starting from `i`. -/
noncomputable def sumBandsFrom (lscp : List FHEI) (i : ℕ) : ℝ :=
  if h : 0 < (lscp.getD i default).fhei then
    (lscp.getD i default).fhei + sumBandsFrom lscp (i + 1)
  else 0
termination_by lscp.length - i
decreasing_by
  have hi : i < lscp.length := by
    by_contra hc
    have hd : (default : FHEI).fhei = 0 := rfl
    rw [List.getD_eq_default _ _ (Nat.le_of_not_lt hc), hd] at h
    exact absurd h (by norm_num)
  omega

/-- Total of the positive band heights (`fmax` right after main.c:934-935). -/
noncomputable def sumBands (lscp : List FHEI) : ℝ := sumBandsFrom lscp 0

/-- `wclr = lscp[i].fclr.RGBA & 0xFFFFFF` at the sentinel (main.c:936). -/
noncomputable def waterClr (lscp : List FHEI) : FCLR :=
  { (lscp.getD (sentinelIdx lscp) default).fclr with A := 0 }

/-- `wtrn = lscp[i].fclr.A` at the sentinel (main.c:937). -/
noncomputable def waterTrn (lscp : List FHEI) : ℕ :=
  (lscp.getD (sentinelIdx lscp) default).fclr.A

/-- Final `i` of the walk
`while (lscp[i].fhei > 0.0 && (fmin -= lscp[i].fhei) > 0.0) i++` (main.c:945). -/
noncomputable def bandWalk (lscp : List FHEI) (i : ℕ) (fmin : ℝ) : ℕ :=
  if h : 0 < (lscp.getD i default).fhei ∧
      0 < fmin - (lscp.getD i default).fhei then
    bandWalk lscp (i + 1) (fmin - (lscp.getD i default).fhei)
  else i
termination_by lscp.length - i
decreasing_by
  have hi : i < lscp.length := by
    by_contra hc
    have hd : (default : FHEI).fhei = 0 := rfl
    rw [List.getD_eq_default _ _ (Nat.le_of_not_lt hc), hd] at h
    exact absurd h.1 (by norm_num)
  omega

/-- Band index selected for a normalized height `fmin` (main.c:944-946): the
walk above followed by `if (lscp[i].fhei <= 0.0) i--`.  (When the walk stops
at `i = 0` on a non-positive first band, the C code would then read
`lscp[-1]`, out of bounds; `ℕ` subtraction truncates at 0 instead.  No
settled claim exercises that corner.) -/
noncomputable def bandIdx (lscp : List FHEI) (fmin : ℝ) : ℕ :=
  let i := bandWalk lscp 0 fmin
  if (lscp.getD i default).fhei ≤ 0 then i - 1 else i

/-- Corner-vertex color at `(x, y)` (main.c:939-960).  `zc`/`zm` give the `z`
of corner and cell-center vertices.  The normalized height is
`fmax * (z - wlvl) / (0.5 * fhei - wlvl)`; the selected band's color is taken
with alpha forced opaque (`| 0xFF000000`).  A vertex at `wlvl` whose four
surrounding cell-center vertices (the slots `xl/xh + yl/yh`, which address the
center rows of `y - 1` and `y`, wrapping toroidally) all sit at `wlvl` is
painted `wclr | (wtrn << 24)` instead. -/
noncomputable def cornerColor (n : ℕ) (zc zm : ℕ → ℕ → ℝ) (lscp : List FHEI)
    (fhei wlvl : ℝ) (x y : ℕ) : FCLR :=
  let fmin := sumBands lscp * (zc x y - wlvl) / (0.5 * fhei - wlvl)
  let i := bandIdx lscp fmin
  let base : FCLR := { (lscp.getD i default).fclr with A := 255 }
  if zc x y = wlvl then
    let xl := if 0 < x then x - 1 else n - 1
    let xh := if x < n then x else 0
    let yl := if 0 < y then y - 1 else n - 1
    let yh := if y < n then y else 0
    if zm xl yl = wlvl ∧ zm xl yh = wlvl ∧ zm xh yl = wlvl ∧ zm xh yh = wlvl then
      { R := (waterClr lscp).R, G := (waterClr lscp).G, B := (waterClr lscp).B,
        A := waterTrn lscp }
    else base
  else base

/-- Center-vertex color at `(x, y)` (main.c:962-991).  `cc` gives the corner
colors.  Channels are the byte-averages (`>> 2`) of the four surrounding
corner colors with alpha 255; if the center sits at `wlvl`, `i` counts the
corners whose alpha differs from `wtrn`, scaled by `255 - wtrn`; when `i == 0`
the whole `DWORD` becomes `wclr`, and the alpha byte is then set to
`wtrn + (i >> 2)`.  (The source's loop also visits `x == ndim` / `y == ndim`
"phantom" center slots; the function is defined on them as well.) -/
noncomputable def centerColor (n : ℕ) (zm : ℕ → ℕ → ℝ) (cc : ℕ → ℕ → FCLR)
    (wclr : FCLR) (wtrn : ℕ) (wlvl : ℝ) (x y : ℕ) : FCLR :=
  let xl := x
  let xh := if x < n then x + 1 else 0
  let yh := if y < n then y + 1 else 0
  let c00 := cc xl y
  let c01 := cc xl yh
  let c10 := cc xh y
  let c11 := cc xh yh
  let base : FCLR :=
    { R := (c00.R + c01.R + c10.R + c11.R) / 4,
      G := (c00.G + c01.G + c10.G + c11.G) / 4,
      B := (c00.B + c01.B + c10.B + c11.B) / 4,
      A := 255 }
  if zm x y = wlvl then
    let i := ((if c00.A = wtrn then 0 else 1) + (if c01.A = wtrn then 0 else 1)
        + (if c10.A = wtrn then 0 else 1) + (if c11.A = wtrn then 0 else 1))
        * (255 - wtrn)
    let pre := if i = 0 then wclr else base
    { pre with A := wtrn + i / 4 }
  else base

/-- Vertex slot of the center vertex of cell `(x, y)`:
`(ndim + 1) + (y * (ndim + 1) << 1) + x` (main.c:721,730). -/
def centerSlot (n x y : ℕ) : ℕ := (n + 1) + 2 * (y * (n + 1)) + x

/-- The slim view of a parent `FVBO` that `ObjectVBO` consumes. -/
structure FVBOSlice where
  ndim : ℕ
  wlvl : ℝ
  zvec : ℕ → ℝ

/-- Candidate anchor slots (main.c:720-722 counts them, main.c:728-732 stores
them): the center vertices with `vect[x].z > wlvl`, in row-major scan order.
(The store `farr[--yh] = x` lays them out in reverse of this order.) -/
noncomputable def objCandidates (n : ℕ) (zvec : ℕ → ℝ) (wlvl : ℝ) : List ℕ :=
  (List.range n).flatMap fun y =>
    (List.range n).filterMap fun x =>
      if wlvl < zvec (centerSlot n x y) then some (centerSlot n x y) else none

/-- The partial Fisher-Yates selection loop (main.c:734-738):
`x = rand() % xh; fobj[xl] = farr[x]; farr[x] = farr[--xh]`, repeated `k`
times; each swap-removal overwrites the picked cell with the last live cell
and shrinks the live range.  The source fills `fobj` from index `xl`
downward; the list below carries the same picks in pick order. -/
noncomputable def fySample (rnd : ℕ → ℕ) (c : ℕ) (farr : List ℕ) :
    ℕ → List ℕ
  | 0 => []
  | k + 1 =>
    let r := rnd c % farr.length
    farr.getD r 0 ::
      fySample rnd (c + 1) ((farr.set r (farr.getD (farr.length - 1) 0)).dropLast) k

/-- `ObjectVBO` (main.c:712-741), modeled up to the anchor selection it makes:
`NULL` when the parent is absent or `inum == 0`; otherwise it selects
`xl = min(candidates, inum)` anchors.  `MakeVBO(3 * 5 * fobj[0])`
(main.c:741) returns `NULL` when that count is zero, and the source then
dereferences the `NULL` result unconditionally (undefined behavior); that
path is modeled as `none`.  The per-anchor prop geometry (main.c:750-819)
consumes the selection without altering it and is not part of the claims. -/
noncomputable def ObjectVBO (vobj : Option FVBOSlice) (inum : ℕ)
    (rnd : ℕ → ℕ) (c : ℕ) : Option (List ℕ) :=
  match vobj with
  | none => none
  | some m =>
    if inum = 0 then none
    else
      let cands := objCandidates m.ndim m.zvec m.wlvl
      let xl := min cands.length inum
      if 3 * 5 * xl = 0 then none
      else some (fySample rnd c cands.reverse xl)

/-- The failure condition of `LandscapeVBO` (main.c:866):
`if (!ndim || !lscp || grid <= 0.0) return NULL;` — the build's only input
validation. -/
def LandscapeRejects (ndim0 : ℕ) (lscp : List FHEI) (grid : ℝ) : Prop :=
  ndim0 = 0 ∨ lscp = [] ∨ grid ≤ 0

/-- The landscape mesh data produced by `LandscapeVBO`, restricted to the
parts the specification's claims are about: counts, the index array, the `z`
of the corner grid (`zc x y`) and of the center grid (`zm x y`, zero on the
never-written `x = ndim` / `y = ndim` phantom slots), the two color grids,
and the chained object VBO's anchor selection. -/
structure LandVBO where
  ndim : ℕ
  npol : ℕ
  ndot : ℕ
  seed : ℕ
  flgs : ℕ
  wlvl : ℝ
  grid : ℝ
  indx : List ℕ
  zc : ℕ → ℕ → ℝ
  zm : ℕ → ℕ → ℝ
  cornerClr : ℕ → ℕ → FCLR
  centerClr : ℕ → ℕ → FCLR
  next : Option (List ℕ)

/-- `MakeFacetTex` with a non-zero amplitude (main.c:372-408) consumes one
`rand()` draw per texel of a `2^8 × 2^8` texture. -/
def texRandDraws : ℕ := 256 * 256

open Classical in
/-- `LandscapeVBO` (main.c:865-1063).  `ndim = pow(2.0, ndim)`;
`wlvl = max(wlvl, -0.5 * (fhei = fabs(fhei)))`; `srand(seed)` starts the
`rand()` stream modeled by `rnd`.  The min/max scan (main.c:903-907) runs
`x` from `(ndim+1)*(ndim+1)` down to `0` inclusive — its first read is one
element past the heightmap (out of bounds; the model's `getD` yields `0`).
The scale `fhei / (fmax - fmin)` (main.c:908) carries no guard against
`fmax == fmin`.  Corner heights are clamped to `wlvl` from below
(main.c:915); center heights average the four clamped corners (main.c:926).
`MakeFacetTex(64)` (main.c:1022) consumes `texRandDraws` draws before
`ObjectVBO(retn, DEF_NOBJ = 50)` runs (main.c:1059). -/
noncomputable def LandscapeVBO (ndim0 flgs seed : ℕ) (grid fhei0 wlvl0 : ℝ)
    (lscp : List FHEI) (rnd : ℕ → ℕ) (junk : ℕ → ℝ) : Option LandVBO :=
  if LandscapeRejects ndim0 lscp grid then none
  else
    let n := 2 ^ ndim0
    let fhei := |fhei0|
    let wlvl := max wlvl0 (-(0.5 * fhei))
    match MakeHeightmap n 1.0 rnd with
    | none => none
    | some farr0 =>
      let b := BlurHeightmap farr0 n 1.5 junk
      let scan := (List.range ((n + 1) * (n + 1) + 1)).map fun i => b.getD i 0
      let fminV := scan.foldl min (b.getD 0 0)
      let fmaxV := scan.foldl max (b.getD 0 0)
      let fscl := fhei / (fmaxV - fminV)
      let zc := fun x y : ℕ =>
        let z := (b.getD (x + y * (n + 1)) 0 - fminV) * fscl - 0.5 * fhei
        if z < wlvl then wlvl else z
      let zm := fun x y : ℕ =>
        if x < n ∧ y < n then
          0.250 * (zc x y + zc (x + 1) y + zc x (y + 1) + zc (x + 1) (y + 1))
        else 0
      let cc := cornerColor n zc zm lscp fhei wlvl
      let mc := centerColor n zm cc (waterClr lscp) (waterTrn lscp) wlvl
      let zslot := fun s : ℕ =>
        if (s / (n + 1)) % 2 = 0 then zc (s % (n + 1)) (s / (n + 1) / 2)
        else zm (s % (n + 1)) (s / (n + 1) / 2)
      some { ndim := n, npol := landNpol n, ndot := landNdot n,
             seed := seed, flgs := flgs, wlvl := wlvl, grid := (n : ℝ) * grid,
             indx := landIndices n, zc := zc, zm := zm,
             cornerClr := cc, centerClr := mc,
             next := ObjectVBO (some ⟨n, wlvl, zslot⟩) 50 rnd
               ((heightmapState n 1.0 rnd).2 + texRandDraws) }

/-- `DEF_FEXT` (main.c:153): the 4 characters of the `".txt"` marker
(`DEF_FEXL = 4`). -/
def txtExt : List Char := ['.', 't', 'x', 't']

/-- One step of `strstr`: scan from position `i` for the first occurrence of
`ndl`; `fuel` bounds the scan (always instantiated `hay.length + 1`). -/
def strstrAux (hay ndl : List Char) (i : ℕ) : ℕ → Option ℕ
  | 0 => none
  | fuel + 1 =>
    if (hay.drop i).take ndl.length = ndl then some i
    else if hay.length ≤ i then none
    else strstrAux hay ndl (i + 1) fuel

/-- C `strstr(hay, ndl)`: position of the first occurrence, if any. -/
def strstrPos (hay ndl : List Char) : Option ℕ :=
  strstrAux hay ndl 0 (hay.length + 1)

/-- The serialization-format dispatch shared verbatim by `Serialize`
(main.c:681) and `Deserialize` (main.c:1091):
`(file = strstr(file, DEF_FEXT)) && (strlen(file) == DEF_FEXL)` — text mode
iff the first occurrence of `".txt"` leaves exactly 4 trailing characters. -/
def pathIsText (p : List Char) : Bool :=
  match strstrPos p txtExt with
  | some i => p.length - i == 4
  | none => false

/-- The persisted session scalars, in the source's storage: `vobj->seed`,
`vobj->flgs`, `fang.{u,v}`, `ftrn.{x,y,z}`, `ldir[0..2]`, `lpos[0..2]`. -/
structure SessionState where
  seed : ℕ
  flgs : ℕ
  angu : ℝ
  angv : ℝ
  trnx : ℝ
  trny : ℝ
  trnz : ℝ
  dirx : ℝ
  diry : ℝ
  dirz : ℝ
  posx : ℝ
  posy : ℝ
  posz : ℝ

/-- A serialized scalar: `U` for the two unsigned fields, `F` for a float. -/
inductive SField where
  | U : ℕ → SField
  | F : ℝ → SField

/-- Field sequence written by the text branch of `Serialize` (main.c:682-686):
the `fprintf(filp, DEF_FRMT, …)` argument order. -/
def serializeTextFields (s : SessionState) : List SField :=
  [.U s.seed, .U s.flgs,
   .F s.angu, .F s.angv,
   .F s.trnx, .F s.trny, .F s.trnz,
   .F s.dirx, .F s.diry, .F s.dirz,
   .F s.posx, .F s.posy, .F s.posz]

/-- Field sequence written by the binary branch of `Serialize`
(main.c:689-694): `seed`, `flgs`, then `fang` (2 floats), `ftrn` (3), the
first 3 of `ldir`, the first 3 of `lpos`, as consecutive native scalars. -/
def serializeBinFields (s : SessionState) : List SField :=
  [.U s.seed, .U s.flgs,
   .F s.angu, .F s.angv,
   .F s.trnx, .F s.trny, .F s.trnz,
   .F s.dirx, .F s.diry, .F s.dirz,
   .F s.posx, .F s.posy, .F s.posz]

/-- `Serialize` (main.c:677-698): the chosen mode and the field sequence it
writes to the file. -/
def Serialize (path : List Char) (s : SessionState) : Bool × List SField :=
  (pathIsText path, if pathIsText path then serializeTextFields s
                    else serializeBinFields s)

/-- The corner-vertex slots written by main.c:909-918: `dpos + x` with
`dpos = (y * (ndim + 1)) << 1`, for `0 ≤ x, y ≤ ndim`. -/
def cornerSlots (n : ℕ) : Finset ℕ :=
  (Finset.range (n + 1) ×ˢ Finset.range (n + 1)).image fun p =>
    2 * (p.2 * (n + 1)) + p.1

/-- The center-vertex slots written by main.c:921-932: `centerSlot n x y` for
`0 ≤ x, y < ndim`. -/
def centerSlots (n : ℕ) : Finset ℕ :=
  (Finset.range n ×ˢ Finset.range n).image fun p => centerSlot n p.1 p.2

/-- The toroidal-wrap invariant of a generated heightmap grid, together with
its allocation size: column `size` mirrors column `0` and row `size` mirrors
row `0`. -/
def WrapOK (size : ℕ) (g : List ℝ) : Prop :=
  g.length = (size + 1) * (size + 1) ∧
  (∀ y, y ≤ size → g.getD (size + y * (size + 1)) 0 = g.getD (y * (size + 1)) 0) ∧
  (∀ x, x ≤ size → g.getD (x + size * (size + 1)) 0 = g.getD x 0)

/-! ## Shared lemmas -/

/-- Uniqueness of the row/column decomposition of a flat grid slot. -/
lemma slotArith {m a b q r : ℕ} (ha : a < m) (hb : b < m)
    (h : q * m + a = r * m + b) : q = r ∧ a = b := by
  have hm : 0 < m := lt_of_le_of_lt (Nat.zero_le a) ha
  have hq : (q * m + a) / m = q := by
    rw [Nat.add_comm, Nat.add_mul_div_right _ _ hm, Nat.div_eq_of_lt ha, Nat.zero_add]
  have hr : (r * m + b) / m = r := by
    rw [Nat.add_comm, Nat.add_mul_div_right _ _ hm, Nat.div_eq_of_lt hb, Nat.zero_add]
  have hqr : q = r := by rw [← hq, ← hr, h]
  subst hqr
  exact ⟨rfl, by omega⟩

/-- `n & (n - 1) == 0` characterizes `0` and the powers of two. -/
lemma and_pred_eq_zero_iff (n : ℕ) :
    n &&& (n - 1) = 0 ↔ n = 0 ∨ ∃ k, n = 2 ^ k := by
  induction n using Nat.strong_induction_on with
  | _ n ih =>
    match n with
    | 0 => simp
    | 1 => simp [show (1 : ℕ) &&& 0 = 0 from rfl]; exact ⟨0, rfl⟩
    | n + 2 =>
      have hn21 : n + 2 - 1 = n + 1 := rfl
      rw [hn21]
      rcases Nat.even_or_odd (n + 2) with he | ho
      · obtain ⟨m, hm⟩ := he
        have hm1 : 1 ≤ m := by omega
        have hbit : ∀ i, ((n + 2) &&& (n + 1)).testBit (i + 1)
            = ((m &&& (m - 1))).testBit i := by
          intro i
          rw [Nat.testBit_land, Nat.testBit_land, Nat.testBit_add_one,
            Nat.testBit_add_one, show (n + 2) / 2 = m by omega,
            show (n + 1) / 2 = m - 1 by omega]
        have hbit0 : ((n + 2) &&& (n + 1)).testBit 0 = false := by
          rw [Nat.testBit_land]
          have : (n + 2).testBit 0 = false := by
            rw [Nat.testBit_zero]
            simp only [decide_eq_false_iff_not]
            omega
          simp [this]
        have key : (n + 2) &&& (n + 1) = 0 ↔ m &&& (m - 1) = 0 := by
          constructor
          · intro h
            apply Nat.eq_of_testBit_eq
            intro i
            rw [Nat.zero_testBit, ← hbit i, h, Nat.zero_testBit]
          · intro h
            apply Nat.eq_of_testBit_eq
            intro i
            cases i with
            | zero => rw [hbit0, Nat.zero_testBit]
            | succ i => rw [hbit i, h, Nat.zero_testBit, Nat.zero_testBit]
        rw [key, ih m (by omega)]
        constructor
        · rintro (rfl | ⟨k, rfl⟩)
          · omega
          · exact Or.inr ⟨k + 1, by rw [pow_succ]; omega⟩
        · rintro (h | ⟨k, hk⟩)
          · omega
          · right
            have hk1 : 1 ≤ k := by
              rcases Nat.eq_zero_or_pos k with rfl | h1
              · rw [pow_zero] at hk; omega
              · exact h1
            refine ⟨k - 1, ?_⟩
            have h2 : (2 : ℕ) ^ k = 2 * 2 ^ (k - 1) := by
              rw [← pow_succ']
              congr 1
              omega
            omega
      · obtain ⟨m, hm⟩ := ho
        have hm1 : 1 ≤ m := by omega
        have hL : (n + 2) &&& (n + 1) ≠ 0 := by
          obtain ⟨i, hi⟩ := Nat.ne_zero_implies_bit_true (x := m) (by omega)
          intro h
          have h2 := congrArg (Nat.testBit · (i + 1)) h
          simp only at h2
          rw [Nat.testBit_land, Nat.testBit_add_one, Nat.testBit_add_one,
            Nat.zero_testBit, show (n + 2) / 2 = m by omega,
            show (n + 1) / 2 = m by omega, hi] at h2
          simp at h2
        have hR : ¬(n + 2 = 0 ∨ ∃ k, n + 2 = 2 ^ k) := by
          rintro (h | ⟨k, hk⟩)
          · omega
          · cases k with
            | zero => rw [pow_zero] at hk; omega
            | succ k =>
              rw [pow_succ'] at hk
              omega
        exact iff_of_false hL hR

/-- Invariant preservation along a left fold. -/
lemma foldl_inv {σ α : Type*} (P : σ → Prop) (f : σ → α → σ) :
    ∀ (l : List α) (s : σ), P s → (∀ s a, a ∈ l → P s → P (f s a)) →
      P (l.foldl f s) := by
  intro l
  induction l with
  | nil => intro s hs _; exact hs
  | cons a t ih =>
    intro s hs hstep
    exact ih (f s a) (hstep s a (List.mem_cons_self a t) hs)
      fun s' b hb => hstep s' b (List.mem_cons_of_mem a hb)

lemma getD_set_ne (l : List ℝ) {i j : ℕ} (v : ℝ) (h : i ≠ j) :
    (l.set i v).getD j 0 = l.getD j 0 := by
  simp [List.getD_eq_getElem?_getD, List.getElem?_set_ne h]

lemma getD_set_self (l : List ℝ) {i : ℕ} (v : ℝ) (h : i < l.length) :
    (l.set i v).getD i 0 = v := by
  simp [List.getD_eq_getElem?_getD, List.getElem?_set_self, h]

lemma mem_crawl {v start stride bound : ℕ} :
    v ∈ crawl start stride bound ↔
      v < bound ∧ start ≤ v ∧ (v - start) % stride = 0 := by
  simp [crawl, List.mem_filter, and_assoc]

lemma mem_halves_pos : ∀ (n s : ℕ), s ∈ halves n → 1 ≤ s := by
  intro n
  induction n using Nat.strong_induction_on with
  | _ n ih =>
    match n with
    | 0 => intro s hs; simp [halves] at hs
    | m + 1 =>
      intro s hs
      rw [halves] at hs
      rcases List.mem_cons.mp hs with rfl | hs'
      · omega
      · exact ih ((m + 1) / 2) (by omega) s hs'

/-! ## C7: validity guard of the heightmap synthesis -/

/-- C7, counterexample: the claim predicts that synthesis fails (returns
`NULL`) for every `size` that is not a power of two; but `size = 0` is not a
power of two and `MakeHeightmap(0, …)` does not return `NULL` — the guard
`(size & (size - 1)) || (size == 1)` passes and a 1×1 grid is allocated. -/
theorem c7_counterexample : MakeHeightmap 0 1 (fun _ => 0) ≠ none := by
  simp [MakeHeightmap]

/-- C7, amended: synthesis returns `NULL` exactly when `size` is neither `0`
nor a power of two `2^k` with `k ≥ 1`; in particular it succeeds on every
`2^k` with `k ≥ 1`, and also on the degenerate `size = 0`. -/
theorem c7_guard_characterization (size : ℕ) (dmpf : ℝ) (rnd : ℕ → ℕ) :
    MakeHeightmap size dmpf rnd = none ↔
      ¬(size = 0 ∨ ∃ k, 1 ≤ k ∧ size = 2 ^ k) := by
  have hand := and_pred_eq_zero_iff size
  have hg : MakeHeightmap size dmpf rnd = none ↔
      (size &&& (size - 1) ≠ 0 ∨ size = 1) := by
    unfold MakeHeightmap
    split <;> simp_all
  rw [hg]
  constructor
  · rintro (h | rfl)
    · rintro (rfl | ⟨k, hk1, rfl⟩)
      · exact h (by simp)
      · exact h (hand.mpr (Or.inr ⟨k, rfl⟩))
    · rintro (h | ⟨k, hk1, hk⟩)
      · omega
      · have := Nat.one_lt_two_pow_iff.mpr (show k ≠ 0 by omega)
        omega
  · intro h
    by_contra hc
    push_neg at hc
    obtain ⟨hz, h1⟩ := hc
    rcases hand.mp hz with rfl | ⟨k, rfl⟩
    · exact h (Or.inl rfl)
    · cases k with
      | zero => exact h1 (by norm_num)
      | succ k => exact h (Or.inr ⟨k + 1, by omega, rfl⟩)

/-! ## C4: blur early returns -/

/-- C4, amended: the blur is the identity exactly on the source's early
returns — when `sigma = 0` or when `3 * |sigma| ≥ size` (which covers every
`sigma ≥ size`); a *negative* `sigma` is **not** a no-op in general, since the
source takes `fabs(fsig)` first. -/
theorem c4_blur_identity (farr : List ℝ) (size : ℕ) (fsig : ℝ) (junk : ℕ → ℝ)
    (h : fsig = 0 ∨ (size : ℝ) ≤ 3 * |fsig|) :
    BlurHeightmap farr size fsig junk = farr := by
  unfold BlurHeightmap
  rcases h with rfl | h
  · rw [if_pos (by norm_num)]
  · by_cases h0 : |fsig| * 3.0 = 0
    · rw [if_pos h0]
    · rw [if_neg h0, if_pos (Or.inr (by rw [show |fsig| * 3.0 = 3 * |fsig| by ring]; exact h))]

/-- Witness for `c4_blur_identity` at `size = 8`, `sigma = 8`. -/
theorem c4_blur_identity_witness :
    BlurHeightmap (List.replicate 81 0) 8 8 (fun _ => 1) = List.replicate 81 0 :=
  c4_blur_identity _ _ _ _ (Or.inr (by norm_num))

/-! ## Blur kernel positivity and the uninitialized-buffer dependence -/

lemma blurB0_pos (fsig : ℝ) : 0 < blurB0 fsig := by
  unfold blurB0
  have hS : 0 ≤ ∑ z in Finset.Icc 1 (blurRadius fsig), blurW fsig z :=
    Finset.sum_nonneg fun z _ => (Real.exp_pos _).le
  have hden : (0 : ℝ) <
      (∑ z in Finset.Icc 1 (blurRadius fsig), blurW fsig z) + 0.5 := by
    norm_num
    linarith
  exact div_pos (by norm_num) hden

lemma blurB_pos (fsig : ℝ) (z : ℕ) : 0 < blurB fsig z :=
  mul_pos (Real.exp_pos _) (blurB0_pos fsig)

lemma blurRow_junk_shift (farr : List ℝ) (size : ℕ) (fsig : ℝ) (x y : ℕ) :
    blurRow farr size fsig (fun _ => 1) x y
      = blurRow farr size fsig (fun _ => 0) x y + blurB0 fsig := by
  unfold blurRow
  ring

lemma blurCol_junk_shift (farr : List ℝ) (size : ℕ) (fsig : ℝ) (x y : ℕ) :
    blurCol farr size fsig (fun _ => 1) x y
      = blurCol farr size fsig (fun _ => 0) x y
        + 2 * blurB0 fsig * ∑ z in Finset.Icc 1 (blurRadius fsig), blurB fsig z := by
  unfold blurCol
  simp only [blurRow_junk_shift]
  have hcong : ∀ z ∈ Finset.Icc 1 (blurRadius fsig),
      ((blurRow farr size fsig (fun _ => 0) x (wrapLo size y z) + blurB0 fsig)
        + (blurRow farr size fsig (fun _ => 0) x (wrapHi size y z) + blurB0 fsig))
          * blurB fsig z
      = (blurRow farr size fsig (fun _ => 0) x (wrapLo size y z)
        + blurRow farr size fsig (fun _ => 0) x (wrapHi size y z)) * blurB fsig z
        + 2 * blurB0 fsig * blurB fsig z := fun z _ => by ring
  rw [Finset.sum_congr rfl hcong, Finset.sum_add_distrib, ← Finset.mul_sum]
  ring

lemma getD_map_range_zero (m : ℕ) (f : ℕ → ℝ) (hm : 0 < m) :
    ((List.range m).map f).getD 0 0 = f 0 := by
  rw [List.getD_eq_getElem?_getD, List.getElem?_map,
    List.getElem?_range (by omega : (0 : ℕ) < m)]
  rfl

lemma blurRadius_nine_halves : blurRadius ((9 : ℝ) / 2) = 4 := by
  unfold blurRadius
  have h : ⌊(9 / 2 : ℝ)⌋ = 4 := by
    rw [Int.floor_eq_iff]
    norm_num
  rw [h]
  rfl

/-- The blurred output depends on the indeterminate contents of the
never-initialized `ftmp` buffer: the all-zeros and all-ones prior contents
give different results on any input heightmap, with the `LandscapeVBO`
parameters `size = 8`, `fsig = 1.5`. -/
lemma blur_junk_dependent (farr : List ℝ) :
    BlurHeightmap farr 8 (3 / 2) (fun _ => 0)
      ≠ BlurHeightmap farr 8 (3 / 2) (fun _ => 1) := by
  have habs : |(3 / 2 : ℝ)| * 3.0 = 9 / 2 := by
    rw [abs_of_pos (by norm_num : (0 : ℝ) < 3 / 2)]
    norm_num
  intro h
  unfold BlurHeightmap at h
  rw [habs, if_neg (by norm_num : ¬((9 : ℝ) / 2 = 0)),
    if_neg (by push_neg; norm_num : ¬((8 : ℕ) = 0 ∨ ((8 : ℕ) : ℝ) ≤ 9 / 2))] at h
  have h0 := congrArg (fun l => l.getD 0 0) h
  simp only [getD_map_range_zero _ _ (by norm_num : 0 < (8 + 1) * (8 + 1))] at h0
  norm_num at h0
  rw [blurCol_junk_shift] at h0
  have hpos : 0 < 2 * blurB0 ((9 : ℝ) / 2)
      * ∑ z in Finset.Icc 1 (blurRadius ((9 : ℝ) / 2)), blurB ((9 : ℝ) / 2) z := by
    apply mul_pos (mul_pos two_pos (blurB0_pos _))
    apply Finset.sum_pos (fun z _ => blurB_pos _ _)
    rw [blurRadius_nine_halves]
    exact ⟨1, by simp⟩
  linarith

/-- C2 (code bug): with the parameters `LandscapeVBO` uses at map size
`2^3 = 8` (`BlurHeightmap(farr, ndim, 1.5)`), two runs of the synthesis+blur
pipeline from the *same* seed (same `rand()` stream `rnd`, same roughness
`dmpf`) produce different blurred heightmaps whenever the `malloc`-returned
`ftmp` buffer happens to hold different residues — the pipeline's output is
not a function of the seed and parameters alone. -/
theorem c2_pipeline_not_bit_identical (dmpf : ℝ) (rnd : ℕ → ℕ) :
    BlurHeightmap (heightmapGrid 8 dmpf rnd) 8 (3 / 2) (fun _ => 0)
      ≠ BlurHeightmap (heightmapGrid 8 dmpf rnd) 8 (3 / 2) (fun _ => 1) :=
  blur_junk_dependent _

/-- C10: the blur's row pass takes its center-weight term from the
never-initialized `ftmp` buffer (not from the input heightmap), so the
blurred output depends on indeterminate memory: on the zero heightmap of
size 8 with `sigma = 1.5`, prior buffer contents all-`0` and all-`1` yield
different outputs. -/
theorem c10_uninitialized_read_dependence :
    BlurHeightmap (List.replicate 81 0) 8 (3 / 2) (fun _ => 0)
      ≠ BlurHeightmap (List.replicate 81 0) 8 (3 / 2) (fun _ => 1) :=
  blur_junk_dependent _

lemma getD_replicate_zero (n i : ℕ) : (List.replicate n (0 : ℝ)).getD i 0 = 0 := by
  rcases lt_or_ge i n with h | h
  · rw [List.getD_eq_getElem _ _ (by simpa using h), List.getElem_replicate]
  · rw [List.getD_eq_default _ _ (by simpa using h)]

lemma blurRadius_three : blurRadius (3 : ℝ) = 3 := by
  unfold blurRadius
  have h : ⌊(3 : ℝ)⌋ = 3 := by
    rw [Int.floor_eq_iff]
    norm_num
  rw [h]
  rfl

/-- C4, counterexample: the claim says every `sigma ≤ 0` is a no-op, but
`sigma = -1` on a size-8 heightmap passes the guards (`fabs(-1) * 3 = 3 < 8`)
and the blur rewrites the grid: on the all-zero heightmap with all-ones
prior `ftmp` contents, cell `(0,0)` becomes `2·blur₀·Σblur_z > 0`. -/
theorem c4_counterexample :
    BlurHeightmap (List.replicate 81 0) 8 (-1) (fun _ => 1)
      ≠ List.replicate 81 0 := by
  have habs : |(-1 : ℝ)| * 3.0 = 3 := by
    rw [abs_neg, abs_one]
    norm_num
  intro h
  unfold BlurHeightmap at h
  rw [habs, if_neg (by norm_num : ¬((3 : ℝ) = 0)),
    if_neg (by push_neg; norm_num : ¬((8 : ℕ) = 0 ∨ ((8 : ℕ) : ℝ) ≤ 3))] at h
  have h0 := congrArg (fun l => l.getD 0 0) h
  simp only [getD_map_range_zero _ _ (by norm_num : 0 < (8 + 1) * (8 + 1)),
    getD_replicate_zero] at h0
  norm_num at h0
  have hrow : ∀ x y : ℕ,
      blurRow (List.replicate 81 0) 8 3 (fun _ => 1) x y = blurB0 3 := by
    intro x y
    unfold blurRow
    simp only [getD_replicate_zero, zero_add, zero_mul, Finset.sum_const_zero,
      add_zero, one_mul]
  rw [show blurCol (List.replicate 81 0) 8 3 (fun _ => 1) 0 0
      = 2 * blurB0 3 * ∑ z in Finset.Icc 1 (blurRadius 3), blurB 3 z by
    unfold blurCol
    simp only [hrow, getD_replicate_zero, zero_mul, zero_add]
    have hcong : ∀ z ∈ Finset.Icc 1 (blurRadius 3),
        (blurB0 3 + blurB0 3) * blurB 3 z = 2 * blurB0 3 * blurB 3 z :=
      fun z _ => by ring
    rw [Finset.sum_congr rfl hcong, ← Finset.mul_sum]] at h0
  have hpos : 0 < 2 * blurB0 (3 : ℝ)
      * ∑ z in Finset.Icc 1 (blurRadius (3 : ℝ)), blurB (3 : ℝ) z := by
    apply mul_pos (mul_pos two_pos (blurB0_pos _))
    apply Finset.sum_pos (fun z _ => blurB_pos _ _)
    rw [blurRadius_three]
    exact ⟨1, by simp⟩
  linarith

/-! ## C1: index and vertex counts of the landscape mesh -/

lemma landIndices_length (n : ℕ) : (landIndices n).length = 12 * n ^ 2 := by
  unfold landIndices
  rw [List.length_flatMap]
  simp only [Function.comp_def]
  have houter : (List.range n).map
      (fun y => ((List.range n).flatMap fun x => cellIdx n x y).length)
      = List.replicate n (12 * n) := by
    rw [List.eq_replicate_iff]
    refine ⟨by simp, ?_⟩
    intro b hb
    simp only [List.mem_map, List.mem_range] at hb
    obtain ⟨y, -, rfl⟩ := hb
    rw [List.length_flatMap]
    simp only [Function.comp_def]
    have hinner : (List.range n).map (fun x => (cellIdx n x y).length)
        = List.replicate n 12 := by
      rw [List.eq_replicate_iff]
      refine ⟨by simp, ?_⟩
      intro c hc
      simp only [List.mem_map, List.mem_range] at hc
      obtain ⟨x, -, rfl⟩ := hc
      rfl
    rw [hinner, List.sum_const_nat]
    ring
  rw [houter, List.sum_const_nat]
  ring

lemma mem_cornerSlots {n s : ℕ} :
    s ∈ cornerSlots n ↔ ∃ x y, x ≤ n ∧ y ≤ n ∧ s = 2 * (y * (n + 1)) + x := by
  unfold cornerSlots
  simp only [Finset.mem_image, Finset.mem_product, Finset.mem_range, Prod.exists]
  constructor
  · rintro ⟨x, y, ⟨hx, hy⟩, rfl⟩
    exact ⟨x, y, by omega, by omega, rfl⟩
  · rintro ⟨x, y, hx, hy, rfl⟩
    exact ⟨x, y, ⟨by omega, by omega⟩, rfl⟩

lemma mem_centerSlots {n s : ℕ} :
    s ∈ centerSlots n ↔ ∃ x y, x < n ∧ y < n ∧ s = centerSlot n x y := by
  unfold centerSlots
  simp only [Finset.mem_image, Finset.mem_product, Finset.mem_range, Prod.exists]
  constructor
  · rintro ⟨x, y, ⟨hx, hy⟩, rfl⟩
    exact ⟨x, y, hx, hy, rfl⟩
  · rintro ⟨x, y, hx, hy, rfl⟩
    exact ⟨x, y, ⟨hx, hy⟩, rfl⟩

lemma card_cornerSlots (n : ℕ) : (cornerSlots n).card = (n + 1) ^ 2 := by
  unfold cornerSlots
  rw [Finset.card_image_of_injOn, Finset.card_product, Finset.card_range]
  · ring
  · rintro ⟨a, b⟩ hab ⟨c, d⟩ hcd h
    simp only [Finset.mem_coe, Finset.mem_product, Finset.mem_range] at hab hcd
    simp only at h
    have h' : (2 * b) * (n + 1) + a = (2 * d) * (n + 1) + c := by
      rw [mul_assoc, mul_assoc]
      exact h
    obtain ⟨hq, ha⟩ := slotArith hab.1 hcd.1 h'
    have : b = d := by omega
    simp [ha, this]

lemma card_centerSlots (n : ℕ) : (centerSlots n).card = n ^ 2 := by
  unfold centerSlots
  rw [Finset.card_image_of_injOn, Finset.card_product, Finset.card_range]
  · ring
  · rintro ⟨a, b⟩ hab ⟨c, d⟩ hcd h
    simp only [Finset.mem_coe, Finset.mem_product, Finset.mem_range] at hab hcd
    simp only [centerSlot] at h
    have h' : (2 * b + 1) * (n + 1) + a = (2 * d + 1) * (n + 1) + c := by
      calc (2 * b + 1) * (n + 1) + a = (n + 1) + 2 * (b * (n + 1)) + a := by ring
      _ = (n + 1) + 2 * (d * (n + 1)) + c := h
      _ = (2 * d + 1) * (n + 1) + c := by ring
    obtain ⟨hq, ha⟩ := slotArith (by omega : a < n + 1) (by omega : c < n + 1) h'
    have : b = d := by omega
    simp [ha, this]

lemma disjoint_corner_center (n : ℕ) :
    Disjoint (cornerSlots n) (centerSlots n) := by
  rw [Finset.disjoint_left]
  intro s hs hs'
  rw [mem_cornerSlots] at hs
  rw [mem_centerSlots] at hs'
  obtain ⟨x, y, hx, hy, rfl⟩ := hs
  obtain ⟨x', y', hx', hy', h⟩ := hs'
  have h' : (2 * y) * (n + 1) + x = (2 * y' + 1) * (n + 1) + x' := by
    calc (2 * y) * (n + 1) + x = 2 * (y * (n + 1)) + x := by ring
    _ = centerSlot n x' y' := h
    _ = (2 * y' + 1) * (n + 1) + x' := by unfold centerSlot; ring
  obtain ⟨hq, -⟩ := slotArith (by omega : x < n + 1) (by omega : x' < n + 1) h'
  omega

lemma landIndices_toFinset (n : ℕ) (hn : 1 ≤ n) :
    (landIndices n).toFinset = cornerSlots n ∪ centerSlots n := by
  obtain ⟨m, rfl⟩ : ∃ m, n = m + 1 := ⟨n - 1, by omega⟩
  ext s
  simp only [List.mem_toFinset, Finset.mem_union, mem_cornerSlots, mem_centerSlots,
    landIndices, List.mem_flatMap, List.mem_range]
  constructor
  · rintro ⟨y, hy, x, hx, hs⟩
    simp only [cellIdx, List.mem_cons, List.not_mem_nil, or_false] at hs
    rcases hs with rfl | rfl | rfl | rfl | rfl | rfl | rfl | rfl | rfl | rfl | rfl | rfl
    · exact Or.inr ⟨x, y, hx, hy, by unfold centerSlot; ring⟩
    · exact Or.inl ⟨x, y, by omega, by omega, rfl⟩
    · exact Or.inl ⟨x + 1, y, by omega, by omega, by ring⟩
    · exact Or.inr ⟨x, y, hx, hy, by unfold centerSlot; ring⟩
    · exact Or.inl ⟨x + 1, y, by omega, by omega, by ring⟩
    · exact Or.inl ⟨x + 1, y + 1, by omega, by omega, by ring⟩
    · exact Or.inr ⟨x, y, hx, hy, by unfold centerSlot; ring⟩
    · exact Or.inl ⟨x + 1, y + 1, by omega, by omega, by ring⟩
    · exact Or.inl ⟨x, y + 1, by omega, by omega, by ring⟩
    · exact Or.inr ⟨x, y, hx, hy, by unfold centerSlot; ring⟩
    · exact Or.inl ⟨x, y + 1, by omega, by omega, by ring⟩
    · exact Or.inl ⟨x, y, by omega, by omega, rfl⟩
  · rintro (⟨x, y, hx, hy, rfl⟩ | ⟨x, y, hx, hy, rfl⟩)
    · rcases Nat.lt_or_ge x (m + 1) with hxlt | hxe
      · rcases Nat.lt_or_ge y (m + 1) with hylt | hyle
        · refine ⟨y, hylt, x, hxlt, ?_⟩
          simp only [cellIdx, List.mem_cons, List.not_mem_nil, or_false]
          exact Or.inr (Or.inl trivial)
        · obtain rfl : y = m + 1 := by omega
          refine ⟨m, by omega, x, hxlt, ?_⟩
          simp only [cellIdx, List.mem_cons, List.not_mem_nil, or_false]
          exact Or.inr (Or.inr (Or.inr (Or.inr (Or.inr (Or.inr (Or.inr (Or.inr
            (Or.inl (by ring)))))))))
      · obtain rfl : x = m + 1 := by omega
        rcases Nat.lt_or_ge y (m + 1) with hylt | hyle
        · refine ⟨y, hylt, m, by omega, ?_⟩
          simp only [cellIdx, List.mem_cons, List.not_mem_nil, or_false]
          exact Or.inr (Or.inr (Or.inl (by ring)))
        · obtain rfl : y = m + 1 := by omega
          refine ⟨m, by omega, m, by omega, ?_⟩
          simp only [cellIdx, List.mem_cons, List.not_mem_nil, or_false]
          exact Or.inr (Or.inr (Or.inr (Or.inr (Or.inr (Or.inl (by ring))))))
    · refine ⟨y, hy, x, hx, ?_⟩
      simp only [cellIdx, List.mem_cons, List.not_mem_nil, or_false]
      exact Or.inl (by unfold centerSlot; ring)

/-- C1: for every map size `n = 2^k` (`k ≥ 1`), the landscape index array has
`12 n²` entries (`4 n²` triangles of 3 indices, exactly `npol`), and the set
of distinct vertex slots those triangles reference has `(n+1)² + n²` members
(the corner vertices plus one center vertex per cell). -/
theorem c1_mesh_counts (k n : ℕ) (hk : 1 ≤ k) (hn : n = 2 ^ k) :
    (landIndices n).length = 12 * n ^ 2 ∧
    landNpol n = (landIndices n).length ∧
    (landIndices n).toFinset.card = (n + 1) ^ 2 + n ^ 2 := by
  have hn1 : 1 ≤ n := by subst hn; exact Nat.one_le_two_pow
  refine ⟨landIndices_length n, ?_, ?_⟩
  · rw [landIndices_length]
    unfold landNpol
    ring
  · rw [landIndices_toFinset n hn1,
      Finset.card_union_of_disjoint (disjoint_corner_center n),
      card_cornerSlots, card_centerSlots]

/-- Witness for `c1_mesh_counts` at the spec scenario `size = 4`:
192 index entries (64 triangles) and `25 + 16 = 41` distinct vertices. -/
theorem c1_mesh_counts_witness :
    (landIndices 4).length = 192 ∧ landNpol 4 = 192 ∧
    (landIndices 4).toFinset.card = 41 := by
  obtain ⟨h1, h2, h3⟩ := c1_mesh_counts 2 4 (by norm_num) (by norm_num)
  refine ⟨by rw [h1]; norm_num, by rw [h2, h1]; norm_num, by rw [h3]; norm_num⟩

/-! ## C5: degenerate-geometry inputs are not rejected -/

/-- C5 (code bug): the build's only input validation is
`if (!ndim || !lscp || grid <= 0.0) return NULL` (main.c:866).  A band table
lacking a terminating zero-weight sentinel — here the single positive band
`{1.0, color}` — passes that guard; the build proceeds and returns a mesh
rather than an empty/absent one, and the band scan of main.c:934-935 runs to
index 1, the table's length, i.e. the C code reads one element past the end
of the array.  (Nothing guards `fmax == fmin` before the division at
main.c:908 either.) -/
theorem c5_degenerate_not_rejected :
    ¬ LandscapeRejects 1 [⟨1, ⟨0, 0, 0, 255⟩⟩] 16 ∧
    sentinelIdx [⟨1, ⟨0, 0, 0, 255⟩⟩] = ([⟨1, ⟨0, 0, 0, 255⟩⟩] : List FHEI).length ∧
    ∀ rnd junk,
      (LandscapeVBO 1 0 0 16 600 (-150) [⟨1, ⟨0, 0, 0, 255⟩⟩] rnd junk).isSome
        = true := by
  have hrej : ¬ LandscapeRejects 1 [(⟨1, ⟨0, 0, 0, 255⟩⟩ : FHEI)] 16 := by
    unfold LandscapeRejects
    push_neg
    refine ⟨by norm_num, by simp, by norm_num⟩
  have hg0 : ([(⟨1, ⟨0, 0, 0, 255⟩⟩ : FHEI)] : List FHEI).getD 0 default
      = ⟨1, ⟨0, 0, 0, 255⟩⟩ := rfl
  have hg1 : ([(⟨1, ⟨0, 0, 0, 255⟩⟩ : FHEI)] : List FHEI).getD 1 default
      = default := rfl
  refine ⟨hrej, ?_, ?_⟩
  · unfold sentinelIdx
    rw [sentinelFrom, dif_pos (by rw [hg0]; norm_num), sentinelFrom,
      dif_neg (by rw [hg1]; norm_num [show (default : FHEI).fhei = 0 from rfl])]
    rfl
  · intro rnd junk
    unfold LandscapeVBO
    rw [if_neg hrej]
    have hmk : MakeHeightmap (2 ^ 1) 1.0 rnd
        = some (heightmapGrid (2 ^ 1) 1.0 rnd) := by
      unfold MakeHeightmap
      rw [if_neg (by decide : ¬((2 ^ 1) &&& (2 ^ 1 - 1) ≠ 0 ∨ 2 ^ 1 = 1))]
    simp only [hmk, Option.isSome_some]

/-! ## C9: serialization dispatch and field order -/

lemma take_drop_match_bound {hay ndl : List Char} {j : ℕ} (hndl : ndl ≠ [])
    (h : (hay.drop j).take ndl.length = ndl) : j + ndl.length ≤ hay.length := by
  have hlen := congrArg List.length h
  rw [List.length_take, List.length_drop] at hlen
  have h1 : 1 ≤ ndl.length := List.length_pos.mpr hndl
  omega

lemma strstrAux_spec (hay ndl : List Char) (hndl : ndl ≠ []) :
    ∀ (fuel i : ℕ), hay.length + 1 ≤ i + fuel →
      ∀ j, (strstrAux hay ndl i fuel = some j ↔
        (i ≤ j ∧ (hay.drop j).take ndl.length = ndl ∧
          ∀ t, i ≤ t → t < j → (hay.drop t).take ndl.length ≠ ndl)) := by
  intro fuel
  induction fuel with
  | zero =>
    intro i hi j
    constructor
    · intro h
      simp [strstrAux] at h
    · rintro ⟨hij, hm, -⟩
      exfalso
      have hb := take_drop_match_bound hndl hm
      have h1 : 1 ≤ ndl.length := List.length_pos.mpr hndl
      omega
  | succ fuel ih =>
    intro i hi j
    rw [strstrAux]
    by_cases hM : (hay.drop i).take ndl.length = ndl
    · rw [if_pos hM]
      constructor
      · intro h
        injection h with h
        subst h
        exact ⟨le_refl _, hM, fun t h1 h2 => absurd h2 (by omega)⟩
      · rintro ⟨hij, hm, hmin⟩
        rcases Nat.eq_or_lt_of_le hij with rfl | hlt
        · rfl
        · exact absurd hM (hmin i (le_refl i) hlt)
    · rw [if_neg hM]
      by_cases hend : hay.length ≤ i
      · rw [if_pos hend]
        constructor
        · intro h
          simp at h
        · rintro ⟨hij, hm, -⟩
          exfalso
          have hb := take_drop_match_bound hndl hm
          have h1 : 1 ≤ ndl.length := List.length_pos.mpr hndl
          omega
      · rw [if_neg hend, ih (i + 1) (by omega) j]
        constructor
        · rintro ⟨hij, hm, hmin⟩
          refine ⟨by omega, hm, fun t h1 h2 => ?_⟩
          rcases Nat.eq_or_lt_of_le h1 with rfl | h3
          · exact hM
          · exact hmin t (by omega) h2
        · rintro ⟨hij, hm, hmin⟩
          have hij1 : i + 1 ≤ j := by
            rcases Nat.eq_or_lt_of_le hij with rfl | h
            · exact absurd hm hM
            · omega
          exact ⟨hij1, hm, fun t h1 h2 => hmin t (by omega) h2⟩

lemma strstrPos_spec (hay ndl : List Char) (hndl : ndl ≠ []) (j : ℕ) :
    strstrPos hay ndl = some j ↔
      ((hay.drop j).take ndl.length = ndl ∧
        ∀ t < j, (hay.drop t).take ndl.length ≠ ndl) := by
  unfold strstrPos
  rw [strstrAux_spec hay ndl hndl (hay.length + 1) 0 (by omega) j]
  constructor
  · rintro ⟨-, hm, hmin⟩
    exact ⟨hm, fun t ht => hmin t (by omega) ht⟩
  · rintro ⟨hm, hmin⟩
    exact ⟨by omega, hm, fun t _ ht => hmin t ht⟩

/-- C9, amended: text mode is selected exactly when the **first** occurrence
of `".txt"` in the path consists of its final 4 characters — i.e. the path
ends in `".txt"` *and* contains no earlier occurrence of `".txt"`; and both
wire formats carry the same 13 fields in the same fixed order
(seed, flags, angleU, angleV, posX, posY, posZ, lightDirX/Y/Z,
lightPosX/Y/Z). -/
theorem c9_dispatch_and_fields (p : List Char) (s : SessionState) :
    (pathIsText p = true ↔
      (4 ≤ p.length ∧ p.drop (p.length - 4) = txtExt ∧
        ∀ i < p.length - 4, (p.drop i).take 4 ≠ txtExt)) ∧
    serializeTextFields s = serializeBinFields s ∧
    serializeTextFields s
      = [.U s.seed, .U s.flgs, .F s.angu, .F s.angv, .F s.trnx, .F s.trny,
         .F s.trnz, .F s.dirx, .F s.diry, .F s.dirz, .F s.posx, .F s.posy,
         .F s.posz] := by
  have hndl : txtExt ≠ [] := by decide
  have hlen4 : txtExt.length = 4 := by decide
  refine ⟨?_, rfl, rfl⟩
  unfold pathIsText
  cases hs : strstrPos p txtExt with
  | none =>
    simp only
    constructor
    · intro h
      exact absurd h (by simp)
    · rintro ⟨hp4, hsuf, -⟩
      exfalso
      have hM : (p.drop (p.length - 4)).take txtExt.length = txtExt := by
        rw [hsuf, List.take_length]
      have hex : ∃ j, (p.drop j).take txtExt.length = txtExt := ⟨_, hM⟩
      have hspec := (strstrPos_spec p txtExt hndl (Nat.find hex)).mpr
        ⟨Nat.find_spec hex, fun t ht => Nat.find_min hex ht⟩
      rw [hs] at hspec
      exact absurd hspec (by simp)
  | some i =>
    simp only
    obtain ⟨hMi, hmin⟩ := (strstrPos_spec p txtExt hndl i).mp hs
    have hbound := take_drop_match_bound hndl hMi
    rw [hlen4] at hbound
    constructor
    · intro h
      have h4 : p.length - i = 4 := by simpa using h
      have hieq : i = p.length - 4 := by omega
      rw [hieq] at hMi hmin
      refine ⟨by omega, ?_, ?_⟩
      · have hdlen : (p.drop (p.length - 4)).length ≤ 4 := by
          rw [List.length_drop]
          omega
        calc p.drop (p.length - 4)
            = (p.drop (p.length - 4)).take txtExt.length := by
              rw [hlen4, List.take_of_length_le hdlen]
          _ = txtExt := hMi
      · intro t ht
        have hmt := hmin t (by omega)
        rw [hlen4] at hmt
        exact hmt
    · rintro ⟨hp4, hsuf, hnomatch⟩
      have hM4 : (p.drop (p.length - 4)).take txtExt.length = txtExt := by
        rw [hsuf, List.take_length]
      have hile : i ≤ p.length - 4 := by
        by_contra hc
        exact hmin (p.length - 4) (by omega) hM4
      have hige : p.length - 4 ≤ i := by
        by_contra hc
        refine hnomatch i (by omega) ?_
        rw [← hlen4]
        exact hMi
      have h4 : p.length - i = 4 := by omega
      simp [h4]

/-- C9, counterexample: the path `"a.txt.txt"` ends in `".txt"` — the claim
predicts the text wire format — but `strstr` finds the earlier occurrence at
index 1, the trailing length is 8 ≠ 4, and binary mode is selected. -/
theorem c9_counterexample :
    pathIsText ['a', '.', 't', 'x', 't', '.', 't', 'x', 't'] = false ∧
    List.drop (['a', '.', 't', 'x', 't', '.', 't', 'x', 't'].length - 4)
      ['a', '.', 't', 'x', 't', '.', 't', 'x', 't'] = txtExt := by
  constructor <;> decide

/-! ## C6: all-water coloring scenario -/

lemma pair_getD_zero (A W : FCLR) :
    ([⟨8, A⟩, ⟨0, W⟩] : List FHEI).getD 0 default = ⟨8, A⟩ := rfl

lemma pair_getD_one (A W : FCLR) :
    ([⟨8, A⟩, ⟨0, W⟩] : List FHEI).getD 1 default = ⟨0, W⟩ := rfl

lemma sentinelIdx_pair (A W : FCLR) : sentinelIdx [⟨8, A⟩, ⟨0, W⟩] = 1 := by
  unfold sentinelIdx
  rw [sentinelFrom, dif_pos (by rw [pair_getD_zero]; norm_num), sentinelFrom,
    dif_neg (by rw [pair_getD_one]; norm_num)]

lemma waterTrn_pair (A W : FCLR) : waterTrn [⟨8, A⟩, ⟨0, W⟩] = W.A := by
  unfold waterTrn
  rw [sentinelIdx_pair, pair_getD_one]

lemma waterClr_pair (A W : FCLR) :
    waterClr [⟨8, A⟩, ⟨0, W⟩] = ⟨W.R, W.G, W.B, 0⟩ := by
  unfold waterClr
  rw [sentinelIdx_pair, pair_getD_one]

lemma bandWalk_pair_zero (A W : FCLR) : bandWalk [⟨8, A⟩, ⟨0, W⟩] 0 0 = 0 := by
  rw [bandWalk, dif_neg (by rw [pair_getD_zero]; norm_num)]

lemma bandIdx_pair_zero (A W : FCLR) : bandIdx [⟨8, A⟩, ⟨0, W⟩] 0 = 0 := by
  unfold bandIdx
  rw [bandWalk_pair_zero, if_neg (by rw [pair_getD_zero]; norm_num)]

/-- C6: with the band table `[{8, A}, {0, Water}]` whose water entry has
alpha 128, in a build where every corner vertex sits exactly at `wlvl` and
every cell-center vertex sits exactly at `wlvl` (as the build computes, each
center being the average of its four clamped corners), every corner vertex is
colored exactly the water color with alpha 128, and every center vertex is
also colored exactly the water color with alpha 128. -/
theorem c6_water_coloring (n : ℕ) (hn : 1 ≤ n) (A W : FCLR) (hWA : W.A = 128)
    (fhei wlvl : ℝ) (zc zm : ℕ → ℕ → ℝ)
    (hzc : ∀ x y, x ≤ n → y ≤ n → zc x y = wlvl)
    (hzm : ∀ x y, x < n → y < n → zm x y = wlvl) :
    (∀ x y, x ≤ n → y ≤ n →
      cornerColor n zc zm [⟨8, A⟩, ⟨0, W⟩] fhei wlvl x y
        = ⟨W.R, W.G, W.B, 128⟩) ∧
    (∀ x y, x < n → y < n →
      centerColor n zm (cornerColor n zc zm [⟨8, A⟩, ⟨0, W⟩] fhei wlvl)
        (waterClr [⟨8, A⟩, ⟨0, W⟩]) (waterTrn [⟨8, A⟩, ⟨0, W⟩]) wlvl x y
        = ⟨W.R, W.G, W.B, 128⟩) := by
  have hcorner : ∀ x y, x ≤ n → y ≤ n →
      cornerColor n zc zm [⟨8, A⟩, ⟨0, W⟩] fhei wlvl x y
        = ⟨W.R, W.G, W.B, 128⟩ := by
    intro x y hx hy
    have h1 : zm (if 0 < x then x - 1 else n - 1) (if 0 < y then y - 1 else n - 1)
        = wlvl := hzm _ _ (by split_ifs <;> omega) (by split_ifs <;> omega)
    have h2 : zm (if 0 < x then x - 1 else n - 1) (if y < n then y else 0)
        = wlvl := hzm _ _ (by split_ifs <;> omega) (by split_ifs <;> omega)
    have h3 : zm (if x < n then x else 0) (if 0 < y then y - 1 else n - 1)
        = wlvl := hzm _ _ (by split_ifs <;> omega) (by split_ifs <;> omega)
    have h4 : zm (if x < n then x else 0) (if y < n then y else 0)
        = wlvl := hzm _ _ (by split_ifs <;> omega) (by split_ifs <;> omega)
    simp only [cornerColor, hzc x y hx hy, sub_self, mul_zero, zero_div,
      bandIdx_pair_zero, waterClr_pair, waterTrn_pair, hWA,
      eq_self_iff_true, if_true]
    rw [if_pos ⟨h1, h2, h3, h4⟩]
  refine ⟨hcorner, ?_⟩
  intro x y hx hy
  have hxh : (if x < n then x + 1 else 0) = x + 1 := if_pos hx
  have hyh : (if y < n then y + 1 else 0) = y + 1 := if_pos hy
  simp only [centerColor, hxh, hyh,
    hcorner x y (by omega) (by omega),
    hcorner x (y + 1) (by omega) (by omega),
    hcorner (x + 1) y (by omega) (by omega),
    hcorner (x + 1) (y + 1) (by omega) (by omega),
    hzm x y hx hy, waterClr_pair, waterTrn_pair, hWA,
    eq_self_iff_true, if_true]

/-- Witness for `c6_water_coloring`: `n = 2`, the default palette's land
color `0xFF30A15D` and water color `0x80AC630D` (alpha 128), all heights
pinned to `wlvl = -150`. -/
theorem c6_water_coloring_witness :
    (∀ x y, x ≤ 2 → y ≤ 2 →
      cornerColor 2 (fun _ _ => -150) (fun _ _ => -150)
        [⟨8, ⟨93, 161, 48, 255⟩⟩, ⟨0, ⟨13, 99, 172, 128⟩⟩] 600 (-150) x y
        = ⟨13, 99, 172, 128⟩) ∧
    (∀ x y, x < 2 → y < 2 →
      centerColor 2 (fun _ _ => -150)
        (cornerColor 2 (fun _ _ => -150) (fun _ _ => -150)
          [⟨8, ⟨93, 161, 48, 255⟩⟩, ⟨0, ⟨13, 99, 172, 128⟩⟩] 600 (-150))
        (waterClr [⟨8, ⟨93, 161, 48, 255⟩⟩, ⟨0, ⟨13, 99, 172, 128⟩⟩])
        (waterTrn [⟨8, ⟨93, 161, 48, 255⟩⟩, ⟨0, ⟨13, 99, 172, 128⟩⟩])
        (-150) x y = ⟨13, 99, 172, 128⟩) :=
  c6_water_coloring 2 (by norm_num) ⟨93, 161, 48, 255⟩ ⟨13, 99, 172, 128⟩ rfl
    600 (-150) (fun _ _ => -150) (fun _ _ => -150)
    (fun _ _ _ _ => rfl) (fun _ _ _ _ => rfl)

/-! ## C8: prop-anchor sampling -/

lemma swapRemove_perm (l : List ℕ) (r : ℕ) (hr : r < l.length) :
    (l.set r (l.getD (l.length - 1) 0)).dropLast ~ l.eraseIdx r := by
  rcases Nat.lt_or_ge r (l.length - 1) with hrl | hre
  · rw [List.set_eq_take_cons_drop _ hr, List.eraseIdx_eq_take_drop_succ]
    have hdrop_ne : l.drop (r + 1) ≠ [] := by
      intro hnil
      have h2 := congrArg List.length hnil
      simp only [List.length_drop, List.length_nil] at h2
      omega
    rw [List.dropLast_append_cons, List.dropLast_cons_of_ne_nil hdrop_ne]
    apply List.Perm.append_left
    have hlast : (l.drop (r + 1)).getLast hdrop_ne = l.getD (l.length - 1) 0 := by
      rw [List.getLast_eq_getElem, List.getElem_drop,
        List.getD_eq_getElem _ _ (by omega)]
      congr 1
      simp only [List.length_drop]
      omega
    calc l.getD (l.length - 1) 0 :: (l.drop (r + 1)).dropLast
        = (l.drop (r + 1)).getLast hdrop_ne :: (l.drop (r + 1)).dropLast := by
          rw [hlast]
      _ ~ (l.drop (r + 1)).dropLast ++ [(l.drop (r + 1)).getLast hdrop_ne] :=
          (List.perm_append_singleton _ _).symm
      _ = l.drop (r + 1) := List.dropLast_concat_getLast hdrop_ne
  · obtain rfl : r = l.length - 1 := by omega
    rw [List.set_eq_take_cons_drop _ hr, List.eraseIdx_eq_take_drop_succ]
    have hdr : l.drop (l.length - 1 + 1) = [] := List.drop_eq_nil_of_le (by omega)
    rw [hdr, List.append_nil, List.dropLast_concat]

lemma not_mem_eraseIdx_self {l : List ℕ} {r : ℕ} (hnd : l.Nodup)
    (hr : r < l.length) : l[r] ∉ l.eraseIdx r := by
  rw [List.eraseIdx_eq_take_drop_succ]
  intro hmem
  rcases List.mem_append.mp hmem with h1 | h2
  · obtain ⟨i, hi, hieq⟩ := List.getElem_of_mem h1
    rw [List.getElem_take] at hieq
    have hilen : i < l.length := by
      have := hi
      simp only [List.length_take] at this
      omega
    have : i = r := (hnd.getElem_inj_iff).mp hieq
    have hir : i < r := by
      have := hi
      simp only [List.length_take] at this
      omega
    omega
  · obtain ⟨i, hi, hieq⟩ := List.getElem_of_mem h2
    rw [List.getElem_drop] at hieq
    have : r + 1 + i = r := (hnd.getElem_inj_iff).mp hieq
    omega

lemma fySample_length (rnd : ℕ → ℕ) :
    ∀ (k c : ℕ) (farr : List ℕ), (fySample rnd c farr k).length = k := by
  intro k
  induction k with
  | zero =>
    intro c farr
    rw [fySample]
    rfl
  | succ k ih =>
    intro c farr
    rw [fySample]
    simp [ih]

lemma fySample_nodup_mem (rnd : ℕ → ℕ) :
    ∀ (k c : ℕ) (farr : List ℕ), farr.Nodup → k ≤ farr.length →
      (fySample rnd c farr k).Nodup ∧
      ∀ s ∈ fySample rnd c farr k, s ∈ farr := by
  intro k
  induction k with
  | zero =>
    intro c farr _ _
    rw [fySample]
    exact ⟨List.nodup_nil, by simp⟩
  | succ k ih =>
    intro c farr hnd hk
    rw [fySample]
    have hlen : 0 < farr.length := by omega
    have hr : rnd c % farr.length < farr.length := Nat.mod_lt _ hlen
    have hperm := swapRemove_perm farr (rnd c % farr.length) hr
    have hnd' : ((farr.set (rnd c % farr.length)
        (farr.getD (farr.length - 1) 0)).dropLast).Nodup :=
      hperm.nodup_iff.mpr (List.Nodup.eraseIdx _ hnd)
    have hlen' : ((farr.set (rnd c % farr.length)
        (farr.getD (farr.length - 1) 0)).dropLast).length = farr.length - 1 := by
      simp
    obtain ⟨ihnd, ihmem⟩ := ih (c + 1) _ hnd' (by omega)
    have hsel : farr.getD (rnd c % farr.length) 0 = farr[rnd c % farr.length] :=
      List.getD_eq_getElem _ _ hr
    have hnotmem : farr.getD (rnd c % farr.length) 0
        ∉ (farr.set (rnd c % farr.length) (farr.getD (farr.length - 1) 0)).dropLast := by
      intro hmem
      have h2 := hperm.mem_iff.mp hmem
      rw [hsel] at h2
      exact not_mem_eraseIdx_self hnd hr h2
    constructor
    · exact List.nodup_cons.mpr ⟨fun hmem => hnotmem (ihmem _ hmem), ihnd⟩
    · intro s hs
      rcases List.mem_cons.mp hs with rfl | hs'
      · rw [hsel]
        exact List.getElem_mem _
      · exact List.mem_of_mem_eraseIdx (hperm.mem_iff.mp (ihmem s hs'))

lemma mem_objCandidates {n : ℕ} {zvec : ℕ → ℝ} {wlvl : ℝ} {s : ℕ} :
    s ∈ objCandidates n zvec wlvl ↔
      ∃ x y, x < n ∧ y < n ∧ s = centerSlot n x y ∧
        wlvl < zvec (centerSlot n x y) := by
  unfold objCandidates
  simp only [List.mem_flatMap, List.mem_filterMap, List.mem_range]
  constructor
  · rintro ⟨y, hy, x, hx, hif⟩
    by_cases hc : wlvl < zvec (centerSlot n x y)
    · rw [if_pos hc] at hif
      injection hif with hif
      exact ⟨x, y, hx, hy, hif.symm, hc⟩
    · rw [if_neg hc] at hif
      exact absurd hif (by simp)
  · rintro ⟨x, y, hx, hy, rfl, hc⟩
    exact ⟨y, hy, x, hx, by rw [if_pos hc]⟩

lemma objCandidates_nodup (n : ℕ) (zvec : ℕ → ℝ) (wlvl : ℝ) :
    (objCandidates n zvec wlvl).Nodup := by
  unfold objCandidates
  rw [List.nodup_flatMap]
  constructor
  · intro y _
    apply List.Nodup.filterMap _ (List.nodup_range _)
    intro x x' s hs hs'
    have hx : s = centerSlot n x y := by
      by_cases hc : wlvl < zvec (centerSlot n x y)
      · rw [if_pos hc] at hs
        exact (Option.mem_some_iff.mp hs).symm
      · rw [if_neg hc] at hs
        exact absurd hs (by simp)
    have hx' : s = centerSlot n x' y := by
      by_cases hc : wlvl < zvec (centerSlot n x' y)
      · rw [if_pos hc] at hs'
        exact (Option.mem_some_iff.mp hs').symm
      · rw [if_neg hc] at hs'
        exact absurd hs' (by simp)
    have heq : centerSlot n x y = centerSlot n x' y := by rw [← hx, hx']
    unfold centerSlot at heq
    exact Nat.add_left_cancel heq
  · have hpw : List.Pairwise (· < ·) (List.range n) := List.pairwise_lt_range _
    apply hpw.imp
    intro y y' hyy s hs hs'
    simp only [List.mem_filterMap, List.mem_range] at hs hs'
    obtain ⟨x, hx, hif⟩ := hs
    obtain ⟨x', hx', hif'⟩ := hs'
    have h1 : s = centerSlot n x y := by
      by_cases hc : wlvl < zvec (centerSlot n x y)
      · rw [if_pos hc] at hif
        exact (Option.some_inj.mp hif).symm
      · rw [if_neg hc] at hif
        exact absurd hif (by simp)
    have h2 : s = centerSlot n x' y' := by
      by_cases hc : wlvl < zvec (centerSlot n x' y')
      · rw [if_pos hc] at hif'
        exact (Option.some_inj.mp hif').symm
      · rw [if_neg hc] at hif'
        exact absurd hif' (by simp)
    have heq : (2 * y + 1) * (n + 1) + x = (2 * y' + 1) * (n + 1) + x' := by
      calc (2 * y + 1) * (n + 1) + x = centerSlot n x y := by
            unfold centerSlot
            ring
        _ = centerSlot n x' y' := by rw [← h1, h2]
        _ = (2 * y' + 1) * (n + 1) + x' := by
            unfold centerSlot
            ring
    obtain ⟨hq, -⟩ := slotArith (by omega : x < n + 1) (by omega : x' < n + 1) heq
    omega

/-- C8, amended: `ObjectVBO` fails when the parent mesh is absent or
`inum == 0` — and additionally when there is no above-water candidate at all,
in which case `MakeVBO(3*5*0)` returns `NULL` and the source dereferences it
(modeled as `none`).  Otherwise it returns exactly
`min(inum, candidateCount)` anchors, all distinct, all drawn from the
above-water center vertices. -/
theorem c8_sampling (m : FVBOSlice) (inum : ℕ) (rnd : ℕ → ℕ) (c : ℕ)
    (h0 : inum ≠ 0) (hc : objCandidates m.ndim m.zvec m.wlvl ≠ []) :
    ∃ sel, ObjectVBO (some m) inum rnd c = some sel ∧
      sel.length = min inum (objCandidates m.ndim m.zvec m.wlvl).length ∧
      sel.Nodup ∧
      ∀ s ∈ sel, s ∈ objCandidates m.ndim m.zvec m.wlvl := by
  have hlen : 0 < (objCandidates m.ndim m.zvec m.wlvl).length :=
    List.length_pos.mpr hc
  have hnd := List.nodup_reverse.mpr (objCandidates_nodup m.ndim m.zvec m.wlvl)
  have hkle : min (objCandidates m.ndim m.zvec m.wlvl).length inum
      ≤ (objCandidates m.ndim m.zvec m.wlvl).reverse.length := by
    rw [List.length_reverse]
    omega
  obtain ⟨hselnd, hselmem⟩ := fySample_nodup_mem rnd
    (min (objCandidates m.ndim m.zvec m.wlvl).length inum) c
    (objCandidates m.ndim m.zvec m.wlvl).reverse hnd hkle
  refine ⟨_, ?_, ?_, hselnd, ?_⟩
  · simp only [ObjectVBO]
    rw [if_neg h0, if_neg (by omega :
      ¬(3 * 5 * min (objCandidates m.ndim m.zvec m.wlvl).length inum = 0))]
  · rw [fySample_length]
    omega
  · intro s hs
    exact List.mem_reverse.mp (hselmem s hs)

/-- Witness for `c8_sampling`: a 2×2-cell mesh (`ndim = 1` would give one
cell; here `ndim.zvec` puts its single center vertex above water), asking for
50 props and getting `min 50 1 = 1` anchor. -/
theorem c8_sampling_witness :
    ∃ sel, ObjectVBO (some ⟨1, 0, fun _ => 1⟩) 50 (fun _ => 0) 0 = some sel ∧
      sel.length = min 50 (objCandidates 1 (fun _ => (1 : ℝ)) 0).length ∧
      sel.Nodup ∧
      ∀ s ∈ sel, s ∈ objCandidates 1 (fun _ => (1 : ℝ)) 0 :=
  c8_sampling ⟨1, 0, fun _ => 1⟩ 50 (fun _ => 0) 0 (by norm_num)
    (by
      have h2 : objCandidates 1 (fun _ => (1 : ℝ)) 0 = [2] := by
        unfold objCandidates centerSlot
        norm_num
        decide
      rw [h2]
      simp)

/-- C8, counterexample: a present mesh and `inum = 50 ≠ 0`, but no center
vertex above water — the claim predicts a successful (empty) selection, yet
`MakeVBO(3*5*0)` is `NULL` and `ObjectVBO` dereferences it (modeled `none`). -/
theorem c8_counterexample :
    ObjectVBO (some ⟨1, 0, fun _ => 0⟩) 50 (fun _ => 0) 0 = none := by
  have hc : objCandidates 1 (fun _ => (0 : ℝ)) 0 = [] := by
    unfold objCandidates centerSlot
    norm_num
  simp only [ObjectVBO]
  rw [if_neg (by norm_num : ¬(50 = 0)), hc]
  norm_num

/-! ## C3: toroidal wrap invariant of the heightmap synthesis -/

/-- Two flat grid slots with distinct row/column decompositions are distinct. -/
lemma slot_ne {m x a y b : ℕ} (hx : x < m) (ha : a < m)
    (h : ¬(x = a ∧ y = b)) : x + y * m ≠ a + b * m := by
  intro heq
  have h2 : y * m + x = b * m + a := by omega
  obtain ⟨hyb, hxa⟩ := slotArith hx ha h2
  exact h ⟨hxa, hyb⟩

/-- A flat grid slot lies inside the `(size+1) × (size+1)` allocation. -/
lemma slot_lt_sq (size a b : ℕ) (ha : a < size + 1) (hb : b < size + 1) :
    a + b * (size + 1) < (size + 1) * (size + 1) := by
  have h1 := Nat.mul_le_mul_right (size + 1) (show b + 1 ≤ size + 1 by omega)
  rw [add_mul, one_mul] at h1
  omega

/-- The zero-initialized `calloc` grid satisfies the wrap invariant. -/
lemma wrapOK_init (size : ℕ) :
    WrapOK size (List.replicate ((size + 1) * (size + 1)) (0 : ℝ)) := by
  refine ⟨List.length_replicate _ _, ?_, ?_⟩
  · intro j hj
    rw [getD_replicate_zero, getD_replicate_zero]
  · intro i hi
    rw [getD_replicate_zero, getD_replicate_zero]

/-- Writing a strictly interior cell (`1 ≤ x < size`, `1 ≤ y < size`) preserves
the wrap invariant: no border slot is touched. -/
lemma wrapOK_set_interior {size : ℕ} (g : List ℝ) (v : ℝ) {x y : ℕ}
    (hx1 : 1 ≤ x) (hx : x < size) (hy1 : 1 ≤ y) (hy : y < size)
    (h : WrapOK size g) : WrapOK size (g.set (x + y * (size + 1)) v) := by
  obtain ⟨hlen, hcol, hrow⟩ := h
  refine ⟨by simpa using hlen, ?_, ?_⟩
  · intro j hj
    have d1 : x + y * (size + 1) ≠ size + j * (size + 1) :=
      slot_ne (by omega) (by omega) (by omega)
    have d2 : x + y * (size + 1) ≠ j * (size + 1) := by
      have := slot_ne (show x < size + 1 by omega) (show 0 < size + 1 by omega)
        (show ¬(x = 0 ∧ y = j) by omega)
      simpa using this
    rw [getD_set_ne _ v d1, getD_set_ne _ v d2]
    exact hcol j hj
  · intro i hi
    have d3 : x + y * (size + 1) ≠ i + size * (size + 1) :=
      slot_ne (by omega) (by omega) (by omega)
    have d4 : x + y * (size + 1) ≠ i := by
      have := slot_ne (show x < size + 1 by omega) (show i < size + 1 by omega)
        (show ¬(x = i ∧ y = 0) by omega)
      simpa using this
    rw [getD_set_ne _ v d3, getD_set_ne _ v d4]
    exact hrow i hi

/-- A square-pass write at column `0` of row `y` (`1 ≤ y < size`) followed by
its mirror write of the same value to column `size` preserves the wrap
invariant. -/
lemma wrapOK_colZeroWrite {size : ℕ} (g : List ℝ) (v : ℝ) {y : ℕ}
    (hy1 : 1 ≤ y) (hy : y < size) (h : WrapOK size g) :
    WrapOK size ((g.set (y * (size + 1)) v).set (size + y * (size + 1)) v) := by
  obtain ⟨hlen, hcol, hrow⟩ := h
  have hsz : 1 ≤ size := by omega
  have hb1 : y * (size + 1) < g.length := by
    rw [hlen]
    simpa using slot_lt_sq size 0 y (by omega) (by omega)
  have hb2 : size + y * (size + 1) < (g.set (y * (size + 1)) v).length := by
    rw [List.length_set, hlen]
    exact slot_lt_sq size size y (by omega) (by omega)
  refine ⟨by simpa using hlen, ?_, ?_⟩
  · intro j hj
    by_cases hjy : j = y
    · rw [hjy]
      rw [getD_set_self _ v hb2,
        getD_set_ne _ v (show size + y * (size + 1) ≠ y * (size + 1) by omega),
        getD_set_self g v hb1]
    · have d1 : size + y * (size + 1) ≠ size + j * (size + 1) :=
        slot_ne (by omega) (by omega) (by omega)
      have d2 : y * (size + 1) ≠ size + j * (size + 1) := by
        have := slot_ne (show 0 < size + 1 by omega) (show size < size + 1 by omega)
          (show ¬(0 = size ∧ y = j) by omega)
        simpa using this
      have d3 : size + y * (size + 1) ≠ j * (size + 1) := by
        have := slot_ne (show size < size + 1 by omega) (show 0 < size + 1 by omega)
          (show ¬(size = 0 ∧ y = j) by omega)
        simpa using this
      have d4 : y * (size + 1) ≠ j * (size + 1) := by
        have := slot_ne (show 0 < size + 1 by omega) (show 0 < size + 1 by omega)
          (show ¬((0 : ℕ) = 0 ∧ y = j) by omega)
        simpa using this
      rw [getD_set_ne _ v d1, getD_set_ne _ v d2, getD_set_ne _ v d3,
        getD_set_ne _ v d4]
      exact hcol j hj
  · intro i hi
    have d5 : size + y * (size + 1) ≠ i + size * (size + 1) :=
      slot_ne (by omega) (by omega) (by omega)
    have d6 : y * (size + 1) ≠ i + size * (size + 1) := by
      have := slot_ne (show 0 < size + 1 by omega) (show i < size + 1 by omega)
        (show ¬(0 = i ∧ y = size) by omega)
      simpa using this
    have d7 : size + y * (size + 1) ≠ i := by
      have := slot_ne (show size < size + 1 by omega) (show i < size + 1 by omega)
        (show ¬(size = i ∧ y = 0) by omega)
      simpa using this
    have d8 : y * (size + 1) ≠ i := by
      have := slot_ne (show 0 < size + 1 by omega) (show i < size + 1 by omega)
        (show ¬(0 = i ∧ y = 0) by omega)
      simpa using this
    rw [getD_set_ne _ v d5, getD_set_ne _ v d6, getD_set_ne _ v d7,
      getD_set_ne _ v d8]
    exact hrow i hi

/-- A square-pass write at row `0` of column `x` (`1 ≤ x < size`) followed by
its mirror write of the same value to row `size` preserves the wrap
invariant. -/
lemma wrapOK_rowZeroWrite {size : ℕ} (g : List ℝ) (v : ℝ) {x : ℕ}
    (hx1 : 1 ≤ x) (hx : x < size) (h : WrapOK size g) :
    WrapOK size ((g.set x v).set (x + size * (size + 1)) v) := by
  obtain ⟨hlen, hcol, hrow⟩ := h
  have hsz : 1 ≤ size := by omega
  have hb1 : x < g.length := by
    rw [hlen]
    simpa using slot_lt_sq size x 0 (by omega) (by omega)
  have hb2 : x + size * (size + 1) < (g.set x v).length := by
    rw [List.length_set, hlen]
    exact slot_lt_sq size x size (by omega) (by omega)
  have hms : size + 1 ≤ size * (size + 1) := by
    have h1 := Nat.mul_le_mul_right (size + 1) hsz
    rwa [one_mul] at h1
  refine ⟨by simpa using hlen, ?_, ?_⟩
  · intro j hj
    have d1 : x + size * (size + 1) ≠ size + j * (size + 1) :=
      slot_ne (by omega) (by omega) (by omega)
    have d2 : x ≠ size + j * (size + 1) := by
      have := slot_ne (show x < size + 1 by omega) (show size < size + 1 by omega)
        (show ¬(x = size ∧ 0 = j) by omega)
      simpa using this
    have d3 : x + size * (size + 1) ≠ j * (size + 1) := by
      have := slot_ne (show x < size + 1 by omega) (show 0 < size + 1 by omega)
        (show ¬(x = 0 ∧ size = j) by omega)
      simpa using this
    have d4 : x ≠ j * (size + 1) := by
      have := slot_ne (show x < size + 1 by omega) (show 0 < size + 1 by omega)
        (show ¬(x = 0 ∧ (0 : ℕ) = j) by omega)
      simpa using this
    rw [getD_set_ne _ v d1, getD_set_ne _ v d2, getD_set_ne _ v d3,
      getD_set_ne _ v d4]
    exact hcol j hj
  · intro i hi
    by_cases hix : i = x
    · rw [hix]
      rw [getD_set_self _ v hb2,
        getD_set_ne _ v (show x + size * (size + 1) ≠ x by omega),
        getD_set_self g v hb1]
    · have d5 : x + size * (size + 1) ≠ i + size * (size + 1) :=
        slot_ne (by omega) (by omega) (by omega)
      have d6 : x ≠ i + size * (size + 1) := by
        have := slot_ne (show x < size + 1 by omega) (show i < size + 1 by omega)
          (show ¬(x = i ∧ (0 : ℕ) = size) by omega)
        simpa using this
      have d7 : x + size * (size + 1) ≠ i := by
        have := slot_ne (show x < size + 1 by omega) (show i < size + 1 by omega)
          (show ¬(x = i ∧ size = 0) by omega)
        simpa using this
      have d8 : x ≠ i := by omega
      rw [getD_set_ne _ v d5, getD_set_ne _ v d6, getD_set_ne _ v d7,
        getD_set_ne _ v d8]
      exact hrow i hi

/-- Every diamond-pass write lands strictly inside the grid and so preserves
the wrap invariant. -/
lemma wrapOK_diamondWrite (size step : ℕ) (hdef : ℝ) (rnd : ℕ → ℕ)
    (st : List ℝ × ℕ) (x y : ℕ)
    (hx1 : 1 ≤ x) (hx : x < size) (hy1 : 1 ≤ y) (hy : y < size)
    (h : WrapOK size st.1) :
    WrapOK size (diamondWrite size step hdef rnd st (x, y)).1 := by
  dsimp only [diamondWrite]
  exact wrapOK_set_interior st.1 _ hx1 hx hy1 hy h

/-- Every square-pass write (with its mirror writes) preserves the wrap
invariant, provided the written point is in range and is not the corner
`(0, 0)`. -/
lemma wrapOK_squareWrite (size step : ℕ) (hdef : ℝ) (rnd : ℕ → ℕ)
    (st : List ℝ × ℕ) (x y : ℕ) (hx : x < size) (hy : y < size)
    (hxy : 1 ≤ x ∨ 1 ≤ y) (h : WrapOK size st.1) :
    WrapOK size (squareWrite size step hdef rnd st (x, y)).1 := by
  dsimp only [squareWrite]
  rcases Nat.eq_zero_or_pos x with rfl | hx1
  · have hy1 : 1 ≤ y := by omega
    rw [if_neg (show ¬ y = 0 by omega), if_pos (show (0 : ℕ) = 0 from rfl)]
    simp only [Nat.zero_add]
    have hb1 : y * (size + 1) < st.1.length := by
      rw [h.1]
      simpa using slot_lt_sq size 0 y (by omega) (by omega)
    rw [getD_set_self st.1 _ hb1]
    exact wrapOK_colZeroWrite st.1 _ hy1 hy h
  · rcases Nat.eq_zero_or_pos y with rfl | hy1
    · rw [if_pos (show (0 : ℕ) = 0 from rfl), if_neg (show ¬ x = 0 by omega)]
      simp only [Nat.zero_mul, Nat.add_zero]
      have hb1 : x < st.1.length := by
        rw [h.1]
        simpa using slot_lt_sq size x 0 (by omega) (by omega)
      rw [getD_set_self st.1 _ hb1]
      exact wrapOK_rowZeroWrite st.1 _ hx1 hx h
    · rw [if_neg (show ¬ y = 0 by omega), if_neg (show ¬ x = 0 by omega)]
      exact wrapOK_set_interior st.1 _ hx1 hx hy1 hy h

/-- The diamond pass (main.c:430-436) preserves the wrap invariant: both loop
counters run over `step, 3*step, … < size`. -/
lemma wrapOK_diamondPass (size step : ℕ) (hstep : 1 ≤ step) (hdef : ℝ)
    (rnd : ℕ → ℕ) (st : List ℝ × ℕ) (h : WrapOK size st.1) :
    WrapOK size (diamondPass size step hdef rnd st).1 := by
  unfold diamondPass
  refine foldl_inv (fun q : List ℝ × ℕ => WrapOK size q.1) _ _ _ h ?_
  intro s p hp hP
  simp only [List.mem_flatMap, List.mem_map] at hp
  obtain ⟨b, hb, a, ha, rfl⟩ := hp
  rw [mem_crawl] at ha hb
  exact wrapOK_diamondWrite size step hdef rnd s a b (by omega) (by omega)
    (by omega) (by omega) hP

/-- The square pass (main.c:438-450) preserves the wrap invariant: every
visited point has `x < size`, `y < size`, and the corner `(0, 0)` is never
visited because row `0` starts its `x` loop at `step ≥ 1` (`oddc` starts at
`0`) and a row whose `x` loop starts at `0` has odd index `j ≥ 1`, hence
`y > 0` since the row list is strictly increasing. -/
lemma wrapOK_squarePass (size step : ℕ) (hstep : 1 ≤ step) (hdef : ℝ)
    (rnd : ℕ → ℕ) (st : List ℝ × ℕ) (h : WrapOK size st.1) :
    WrapOK size (squarePass size step hdef rnd st).1 := by
  unfold squarePass
  refine foldl_inv (fun q : List ℝ × ℕ => WrapOK size q.1) _ _ _ h ?_
  intro s p hp hP
  simp only [List.mem_flatMap, List.mem_map] at hp
  obtain ⟨jy, hjy, a, ha, rfl⟩ := hp
  obtain ⟨j, y⟩ := jy
  dsimp only at ha hjy ⊢
  rw [mem_crawl] at ha
  have hget : (crawl 0 step size)[j]? = some y := List.mem_enum_iff_getElem?.mp hjy
  have hymem : y ∈ crawl 0 step size := List.getElem?_mem hget
  rw [mem_crawl] at hymem
  have hxy : 1 ≤ a ∨ 1 ≤ y := by
    rcases Nat.eq_zero_or_pos a with rfl | h1
    · right
      obtain ⟨-, hs, -⟩ := ha
      have hj : j % 2 = 1 := by
        by_contra hj
        rw [if_neg hj] at hs
        omega
      obtain ⟨hjlt, hgety⟩ := List.getElem?_eq_some_iff.mp hget
      have hpw : List.Pairwise (· < ·) (crawl 0 step size) :=
        List.Pairwise.sublist (List.filter_sublist _) (List.pairwise_lt_range size)
      have hlt := List.pairwise_iff_getElem.mp hpw 0 j (by omega) hjlt (by omega)
      rw [hgety] at hlt
      omega
    · left
      exact h1
  exact wrapOK_squareWrite size step hdef rnd s a y (by omega) (by omega) hxy hP

/-- The full diamond-square fold of `MakeHeightmap` maintains the wrap
invariant from the `calloc` start, so the final grid satisfies it. -/
lemma wrapOK_heightmapGrid (size : ℕ) (dmpf : ℝ) (rnd : ℕ → ℕ) :
    WrapOK size (heightmapGrid size dmpf rnd) := by
  dsimp only [heightmapGrid, heightmapState]
  refine foldl_inv (fun q : (List ℝ × ℕ) × ℝ => WrapOK size q.1.1) _ _ _ ?_ ?_
  · exact wrapOK_init size
  · intro q a ha hP
    have hstep := mem_halves_pos (size / 2) a ha
    exact wrapOK_squarePass size a hstep q.2 rnd _
      (wrapOK_diamondPass size a hstep q.2 rnd q.1 hP)

/-- C3: for every valid `size = 2^k` with `k ≥ 1` and every roughness `dmpf`
(and every `rand()` stream), `MakeHeightmap` succeeds and returns the generated
grid; that grid has exactly `(size+1)^2` values; the value at `(size, y)`
equals the value at `(0, y)` for every `y ≤ size`, the value at `(x, size)`
equals the value at `(x, 0)` for every `x ≤ size`, and the four grid corners
all equal the `(0, 0)` corner (toroidal wrap invariant, main.c:422-453). -/
theorem c3_heightmap_size_and_wrap (k : ℕ) (hk : 1 ≤ k) (dmpf : ℝ)
    (rnd : ℕ → ℕ) :
    MakeHeightmap (2 ^ k) dmpf rnd = some (heightmapGrid (2 ^ k) dmpf rnd) ∧
    (heightmapGrid (2 ^ k) dmpf rnd).length = (2 ^ k + 1) ^ 2 ∧
    (∀ y, y ≤ 2 ^ k →
      (heightmapGrid (2 ^ k) dmpf rnd).getD (2 ^ k + y * (2 ^ k + 1)) 0
        = (heightmapGrid (2 ^ k) dmpf rnd).getD (y * (2 ^ k + 1)) 0) ∧
    (∀ x, x ≤ 2 ^ k →
      (heightmapGrid (2 ^ k) dmpf rnd).getD (x + 2 ^ k * (2 ^ k + 1)) 0
        = (heightmapGrid (2 ^ k) dmpf rnd).getD x 0) ∧
    (heightmapGrid (2 ^ k) dmpf rnd).getD (2 ^ k) 0
      = (heightmapGrid (2 ^ k) dmpf rnd).getD 0 0 ∧
    (heightmapGrid (2 ^ k) dmpf rnd).getD (2 ^ k * (2 ^ k + 1)) 0
      = (heightmapGrid (2 ^ k) dmpf rnd).getD 0 0 ∧
    (heightmapGrid (2 ^ k) dmpf rnd).getD (2 ^ k + 2 ^ k * (2 ^ k + 1)) 0
      = (heightmapGrid (2 ^ k) dmpf rnd).getD 0 0 := by
  obtain ⟨hlen, hcol, hrow⟩ := wrapOK_heightmapGrid (2 ^ k) dmpf rnd
  have hand : (2 : ℕ) ^ k &&& (2 ^ k - 1) = 0 :=
    (and_pred_eq_zero_iff _).mpr (Or.inr ⟨k, rfl⟩)
  have h2k : 2 ≤ 2 ^ k := by
    calc (2 : ℕ) = 2 ^ 1 := (pow_one 2).symm
    _ ≤ 2 ^ k := Nat.pow_le_pow_right (by omega) hk
  refine ⟨?_, ?_, hcol, hrow, ?_, ?_, ?_⟩
  · unfold MakeHeightmap
    rw [if_neg (show ¬((2 : ℕ) ^ k &&& (2 ^ k - 1) ≠ 0 ∨ (2 : ℕ) ^ k = 1) by
      push_neg
      exact ⟨hand, by omega⟩)]
  · rw [hlen]
    ring
  · simpa using hcol 0 (by omega)
  · simpa using hrow 0 (by omega)
  · have h1 := hrow (2 ^ k) (le_refl _)
    rw [h1]
    simpa using hcol 0 (by omega)

/-- C3, witness: the wrap invariant at `k = 1` (a `3 × 3` grid), `dmpf = 1`,
and the all-zero `rand()` stream. -/
theorem c3_heightmap_size_and_wrap_witness :
    MakeHeightmap (2 ^ 1) 1 (fun _ => 0)
      = some (heightmapGrid (2 ^ 1) 1 (fun _ => 0)) ∧
    (heightmapGrid (2 ^ 1) 1 (fun _ => 0)).length = (2 ^ 1 + 1) ^ 2 ∧
    (∀ y, y ≤ 2 ^ 1 →
      (heightmapGrid (2 ^ 1) 1 (fun _ => 0)).getD (2 ^ 1 + y * (2 ^ 1 + 1)) 0
        = (heightmapGrid (2 ^ 1) 1 (fun _ => 0)).getD (y * (2 ^ 1 + 1)) 0) ∧
    (∀ x, x ≤ 2 ^ 1 →
      (heightmapGrid (2 ^ 1) 1 (fun _ => 0)).getD (x + 2 ^ 1 * (2 ^ 1 + 1)) 0
        = (heightmapGrid (2 ^ 1) 1 (fun _ => 0)).getD x 0) ∧
    (heightmapGrid (2 ^ 1) 1 (fun _ => 0)).getD (2 ^ 1) 0
      = (heightmapGrid (2 ^ 1) 1 (fun _ => 0)).getD 0 0 ∧
    (heightmapGrid (2 ^ 1) 1 (fun _ => 0)).getD (2 ^ 1 * (2 ^ 1 + 1)) 0
      = (heightmapGrid (2 ^ 1) 1 (fun _ => 0)).getD 0 0 ∧
    (heightmapGrid (2 ^ 1) 1 (fun _ => 0)).getD (2 ^ 1 + 2 ^ 1 * (2 ^ 1 + 1)) 0
      = (heightmapGrid (2 ^ 1) 1 (fun _ => 0)).getD 0 0 :=
  c3_heightmap_size_and_wrap 1 (le_refl 1) 1 (fun _ => 0)

end Msu3Hills
